import Mathlib

/-!
Verification of the CPM scheduling engine of `app/services/schedule.py`
(`_topological_order`, `_add_days`, `compute_cpm`) against its data model
in `app/models.py`.

Modelling conventions:
* Calendar dates are day numbers (`Int`); Python `date + timedelta(days=d)`
  is integer addition and `(a - b).days` is integer subtraction.
* Python `dict`s are ordered association lists: insertion order is
  preserved, lookup takes the first matching key, updating an existing key
  keeps its position, new keys are appended at the end.
* `collections.defaultdict(list)` reads of missing keys yield `[]`.
* `collections.deque` used FIFO is a list popped at the head and appended
  at the tail.
* Exceptions are `Except`: `CycleError` raised by `_topological_order`
  becomes `ScheduleError.cycleError`; the built-in `KeyError` that
  `indegree[v] += 1` raises for a successor id missing from the task list
  becomes `ScheduleError.keyError`.
* The database fetch at the top of `compute_cpm` is the caller-side
  collaborator: the model receives the project's start date, its task rows
  and its dependency rows directly, already scoped to one project, and the
  `session.add_all` write-back is modelled by returning the (possibly
  mutated) task rows.
-/

namespace CPM

/-- Read of a Python `dict` modelled as an ordered association list:
first entry with the key wins; `none` models a `KeyError`. -/
def alookup {β : Type} : List (Int × β) → Int → Option β
  | [], _ => none
  | (k', v) :: rest, k => if k = k' then some v else alookup rest k

/-- Write `d[k] = v` on a Python `dict`: an existing key keeps its
position and gets the new value, a new key is appended at the end. -/
def aset {β : Type} : List (Int × β) → Int → β → List (Int × β)
  | [], k, v => [(k, v)]
  | (k', v') :: rest, k, v =>
    if k = k' then (k', v) :: rest else (k', v') :: aset rest k v

/-- `d[k].append(v)` on a `defaultdict(list)`: append to the existing
bucket, or create the bucket `[v]` for a fresh key. -/
def adjAppend : List (Int × List Int) → Int → Int → List (Int × List Int)
  | [], k, v => [(k, [v])]
  | (k', vs) :: rest, k, v =>
    if k = k' then (k', vs ++ [v]) :: rest else (k', vs) :: adjAppend rest k v

/-- Read of a `defaultdict(list)`: a missing key reads as `[]`. -/
def edgesGet (d : List (Int × List Int)) (k : Int) : List Int :=
  (alookup d k).getD []

/-- `app.models.Task` (`models.py`): one task row.  `id` is the primary
key, always present on rows read back from the database, hence a plain
integer here.  The cost fields and `percent_complete` are Python floats
that the scheduler never reads; they are carried only so that the
write-back frame effect can be stated. -/
structure Task where
  id : Int
  project_id : Int
  name : String
  duration_days : Int
  planned_start_date : Option Int
  planned_finish_date : Option Int
  cost_planned : Float
  cost_actual : Float
  percent_complete : Float
  notes : Option String

/-- `app.models.TaskDependency`: one directed dependency edge.  The row id
and `project_id` are dropped: `compute_cpm` reads only the two endpoint
ids of the rows it fetched for the project. -/
structure TaskDependency where
  predecessor_id : Int
  successor_id : Int
deriving DecidableEq

/-- `app.models.TaskSchedule` with dates as day numbers. -/
structure TaskSchedule where
  task_id : Int
  early_start : Int
  early_finish : Int
  late_start : Int
  late_finish : Int
  total_float_days : Int
  is_critical : Bool
deriving DecidableEq

/-- `app.models.ProjectSchedule` with dates as day numbers. -/
structure ProjectSchedule where
  project_id : Int
  start_date : Int
  finish_date : Int
  critical_path_task_ids : List Int
deriving DecidableEq

/-- The two ways the engine fails: the unhandled Python `KeyError` from
`indegree[v] += 1` on a successor id that is not a task, and
`CycleError("Task dependency graph has a cycle")`. -/
inductive ScheduleError where
  | keyError
  | cycleError
deriving DecidableEq

/-- `task_by_id = {t.id: t for t in tasks if t.id is not None}`: Python
dict comprehension (every modelled row has an id).  A duplicate id keeps
the first occurrence's position and the last occurrence's row. -/
def buildTaskMap (tasks : List Task) : List (Int × Task) :=
  tasks.foldl (fun d t => aset d t.id t) []

/-- `duration_days` of the row `task_by_id[tid]`.  For every id produced
by a successful topological sort the lookup succeeds; the default is never
read. -/
def durOf (taskMap : List (Int × Task)) (tid : Int) : Int :=
  match alookup taskMap tid with
  | some t => t.duration_days
  | none => 1

/-- The `successors` / `predecessors` adjacency dicts built from the
dependency rows (lines 56-60 of `schedule.py`). -/
def buildAdj (deps : List TaskDependency) :
    List (Int × List Int) × List (Int × List Int) :=
  deps.foldl
    (fun sp d =>
      (adjAppend sp.1 d.predecessor_id d.successor_id,
       adjAppend sp.2 d.successor_id d.predecessor_id))
    ([], [])

/-- `indegree[k] += 1`; `none` models the `KeyError` raised when `k` is
not a key. -/
def incr (d : List (Int × Int)) (k : Int) : Option (List (Int × Int)) :=
  match alookup d k with
  | some c => some (aset d k (c + 1))
  | none => none

/-- Lines 18-21 of `schedule.py`: `indegree = {t: 0 for t in task_ids}`
followed by `for u in edges: for v in edges[u]: indegree[v] += 1`,
propagating the possible `KeyError`. -/
def buildIndegree (taskIds : List Int) (edges : List (Int × List Int)) :
    Option (List (Int × Int)) :=
  edges.foldl
    (fun od e => e.2.foldl (fun od' v => od'.bind (fun d => incr d v)) od)
    (some (taskIds.map (fun t => (t, 0))))

/-- Body of the inner `for v in edges[u]` loop of Kahn's algorithm:
`indegree[v] -= 1; if indegree[v] == 0: queue.append(v)`.  The `none`
branch would be a `KeyError`, unreachable because `buildIndegree` already
looked up every successor id successfully. -/
def kahnStepSucc (indeg : List (Int × Int)) (queue : List Int) (v : Int) :
    List (Int × Int) × List Int :=
  match alookup indeg v with
  | some c => (aset indeg v (c - 1), if c - 1 = 0 then queue ++ [v] else queue)
  | none => (indeg, queue)

/-- The `while queue` loop of `_topological_order`.  The Python loop
always terminates: every iteration moves one element from the queue to
`order`, and `order` always holds distinct task ids, so at most
`taskIds.length` iterations ever run; the fuel `taskIds.length + 1`
supplied by `topologicalOrder` is therefore never exhausted. -/
def kahnLoop (edges : List (Int × List Int)) :
    Nat → List (Int × Int) → List Int → List Int → List Int
  | _, _, [], order => order
  | 0, _, _ :: _, order => order
  | fuel + 1, indeg, u :: rest, order =>
    let p := (edgesGet edges u).foldl (fun q v => kahnStepSucc q.1 q.2 v) (indeg, rest)
    kahnLoop edges fuel p.1 p.2 (order ++ [u])

/-- `_topological_order(task_ids, edges)` (lines 17-35 of `schedule.py`):
build the in-degree map (propagating `KeyError`), seed the FIFO queue with
the zero-in-degree tasks, run Kahn's algorithm, and raise `CycleError`
when not every task was ordered. -/
def topologicalOrder (taskIds : List Int) (edges : List (Int × List Int)) :
    Except ScheduleError (List Int) :=
  match buildIndegree taskIds edges with
  | none => .error .keyError
  | some indeg =>
    let queue := taskIds.filter (fun t => alookup indeg t == some 0)
    let order := kahnLoop edges (taskIds.length + 1) indeg queue []
    if order.length = taskIds.length then .ok order else .error .cycleError

/-- Python `max(x, *l)`: left fold of `max` seeded with the first value. -/
def maxFold (x : Int) (l : List Int) : Int := l.foldl max x

/-- Python `min(x, *l)`: left fold of `min` seeded with the first value. -/
def minFold (x : Int) (l : List Int) : Int := l.foldl min x

/-- `ef[p]` (resp. `ls[s]`) inside the passes.  A missing key would be a
Python `KeyError`; on an order produced by a successful topological sort
every predecessor (resp. successor) has already been processed, so the
default is never read. -/
def dateLookup (d : List (Int × Int)) (k : Int) : Int :=
  (alookup d k).getD 0

/-- One iteration of the forward pass (lines 67-74 of `schedule.py`) over
the state `(es, ef)`:
`es[tid] = project.start_date` when `predecessors[tid]` is empty, else
`max(ef[p] for p in predecessors[tid])`; then
`ef[tid] = es[tid] + max(1, duration_days)`. -/
def forwardStep (startDate : Int) (taskMap : List (Int × Task))
    (predecessors : List (Int × List Int))
    (p : List (Int × Int) × List (Int × Int)) (tid : Int) :
    List (Int × Int) × List (Int × Int) :=
  let esT :=
    match edgesGet predecessors tid with
    | [] => startDate
    | q :: qs => maxFold (dateLookup p.2 q) (qs.map (dateLookup p.2))
  let dur := max 1 (durOf taskMap tid)
  (aset p.1 tid esT, aset p.2 tid (esT + dur))

/-- `project_finish = max(ef.values()) if ef else project.start_date`
(line 76). -/
def projectFinish (startDate : Int) (ef : List (Int × Int)) : Int :=
  match ef.map (fun e => e.2) with
  | [] => startDate
  | v :: vs => maxFold v vs

/-- One iteration of the backward pass (lines 83-90) over the state
`(ls, lf)`: `lf[tid] = project_finish` when `successors[tid]` is empty,
else `min(ls[s] for s in successors[tid])`; then
`ls[tid] = lf[tid] - max(1, duration_days)`. -/
def backwardStep (finish : Int) (taskMap : List (Int × Task))
    (successors : List (Int × List Int))
    (p : List (Int × Int) × List (Int × Int)) (tid : Int) :
    List (Int × Int) × List (Int × Int) :=
  let lfT :=
    match edgesGet successors tid with
    | [] => finish
    | q :: qs => minFold (dateLookup p.1 q) (qs.map (dateLookup p.1))
  let dur := max 1 (durOf taskMap tid)
  (aset p.1 tid (lfT - dur), aset p.2 tid lfT)

/-- The `TaskSchedule` assembled for `tid` on lines 95-107:
`total_float = (ls[tid] - es[tid]).days`, `is_critical = total_float == 0`. -/
def mkTaskSchedule (es ef ls lf : List (Int × Int)) (tid : Int) : TaskSchedule :=
  let e := dateLookup es tid
  let s := dateLookup ls tid
  { task_id := tid
    early_start := e
    early_finish := dateLookup ef tid
    late_start := s
    late_finish := dateLookup lf tid
    total_float_days := s - e
    is_critical := decide (s - e = 0) }

/-- In-place mutation `t = task_by_id[tid]; t.planned_start_date = ...;
t.planned_finish_date = ...` seen from the session's row list:
`task_by_id` retained the *last* row carrying each id, so that row is the
one mutated; a missing id would be a `KeyError`, unreachable because every
scheduled id is a key of `task_by_id`. -/
def mutateLast (tid : Int) (s f : Int) : List Task → List Task
  | [] => []
  | t :: rest =>
    if rest.any (fun u => u.id == tid) then t :: mutateLast tid s f rest
    else if t.id == tid then
      { t with planned_start_date := some s, planned_finish_date := some f } :: rest
    else t :: mutateLast tid s f rest

/-- Lines 116-121: `for tid, sched in schedule_by_task.items(): ...`
mutating each scheduled row's planned dates to its early start/finish. -/
def persistTasks (sm : List (Int × TaskSchedule)) (rows : List Task) : List Task :=
  sm.foldl (fun rows e => mutateLast e.1 e.2.early_start e.2.early_finish rows) rows

/-- Everything `compute_cpm` leaves behind: its returned pair and the
session's task rows (mutated when `persist_planned_dates`). -/
structure ComputeOutput where
  projectSchedule : ProjectSchedule
  scheduleByTask : List (Int × TaskSchedule)
  sessionTasks : List Task

/-- `compute_cpm` (lines 42-123 of `schedule.py`), starting after the
database fetch: inputs are the project's start date, its task rows and its
dependency rows.  `schedule_by_task` is a dict keyed by the distinct ids
of `order`, hence the list `order.map ...`; `critical_path_ids` collects,
in the same traversal of `order`, the ids whose float is zero. -/
def computeCPM (projectId : Int) (startDate : Int) (tasks : List Task)
    (deps : List TaskDependency) (persistPlannedDates : Bool) :
    Except ScheduleError ComputeOutput :=
  let taskMap := buildTaskMap tasks
  let taskIds := taskMap.map (fun e => e.1)
  let adj := buildAdj deps
  match topologicalOrder taskIds adj.1 with
  | .error e => .error e
  | .ok order =>
    let fw := order.foldl (forwardStep startDate taskMap adj.2) ([], [])
    let finish := projectFinish startDate fw.2
    let bw := order.reverse.foldl (backwardStep finish taskMap adj.1) ([], [])
    let sm := order.map (fun tid => (tid, mkTaskSchedule fw.1 fw.2 bw.1 bw.2 tid))
    let criticalIds :=
      order.filter (fun tid => (mkTaskSchedule fw.1 fw.2 bw.1 bw.2 tid).is_critical)
    let ps : ProjectSchedule :=
      { project_id := projectId
        start_date := startDate
        finish_date := finish
        critical_path_task_ids := criticalIds }
    let rows := if persistPlannedDates then persistTasks sm tasks else tasks
    .ok { projectSchedule := ps, scheduleByTask := sm, sessionTasks := rows }

/-- The dependency rows as the raw list of directed edges. -/
def edgePairs (deps : List TaskDependency) : List (Int × Int) :=
  deps.map (fun d => (d.predecessor_id, d.successor_id))

/-- The predecessor ids of `v`, in dependency-row order. -/
def predsIn (deps : List TaskDependency) (v : Int) : List Int :=
  ((edgePairs deps).filter (fun e => e.2 == v)).map (fun e => e.1)

/-- The successor ids of `u`, in dependency-row order. -/
def succsIn (deps : List TaskDependency) (u : Int) : List Int :=
  ((edgePairs deps).filter (fun e => e.1 == u)).map (fun e => e.2)

/-- Number of edges into `v` whose source has not been processed yet. -/
def cntRemaining (E : List (Int × Int)) (done : List Int) (v : Int) : Nat :=
  (E.filter (fun e => e.2 == v && !(done.contains e.1))).length

/-- `chainB E a l`: walking `a :: l`, every element has an edge in `E` to
the next one. -/
def chainB (E : List (Int × Int)) : Int → List Int → Bool
  | _, [] => true
  | a, b :: rest => E.contains (a, b) && chainB E b rest

/-- `c` is a directed cycle among the ids `K` over the edge list `E`:
nonempty, all its nodes in `K`, every node connected to the next one, and
the last connected back to the first. -/
def cycleOK (E : List (Int × Int)) (K : List Int) (c : List Int) : Bool :=
  match c with
  | [] => false
  | x :: xs => c.all (fun t => K.contains t) && chainB E x (xs ++ [x])

/-- The dependency graph restricted to the project's task ids contains a
directed cycle. -/
def HasCycle (deps : List TaskDependency) (K : List Int) : Prop :=
  ∃ c : List Int, cycleOK (edgePairs deps) K c = true

/-! ### Association-list lemmas -/

theorem alookup_aset {β : Type} (d : List (Int × β)) (k v k') :
    alookup (aset d k v) k' = if k' = k then some v else alookup d k' := by
  induction d with
  | nil =>
    by_cases h : k' = k <;> simp [aset, alookup, h]
  | cons e rest ih =>
    obtain ⟨a, b⟩ := e
    by_cases hka : k = a
    · subst hka
      by_cases hk' : k' = k <;> simp [aset, alookup, hk']
    · by_cases hk' : k' = a
      · subst hk'
        have : ¬(k' = k) := fun h => hka h.symm
        simp [aset, alookup, hka, this]
      · simp [aset, alookup, hka, hk', ih]

theorem alookup_eq_none {β : Type} (d : List (Int × β)) (k : Int) :
    alookup d k = none ↔ k ∉ d.map (fun e => e.1) := by
  induction d with
  | nil => simp [alookup]
  | cons e rest ih =>
    obtain ⟨a, b⟩ := e
    by_cases h : k = a <;> simp [alookup, h, ih]

theorem alookup_isSome {β : Type} (d : List (Int × β)) (k : Int) :
    (alookup d k).isSome = true ↔ k ∈ d.map (fun e => e.1) := by
  cases h : alookup d k with
  | none =>
    have := (alookup_eq_none d k).mp h
    simp [this]
  | some v =>
    have hne : alookup d k ≠ none := by simp [h]
    rw [Ne, alookup_eq_none] at hne
    simp [not_not.mp hne]

theorem aset_fresh {β : Type} (d : List (Int × β)) (k v)
    (h : alookup d k = none) : aset d k v = d ++ [(k, v)] := by
  induction d with
  | nil => simp [aset]
  | cons e rest ih =>
    obtain ⟨a, b⟩ := e
    by_cases hka : k = a
    · subst hka; simp [alookup] at h
    · simp only [alookup, if_neg hka] at h
      simp [aset, hka, ih h]

theorem aset_keys {β : Type} (d : List (Int × β)) (k v)
    (h : k ∈ d.map (fun e => e.1)) :
    (aset d k v).map (fun e => e.1) = d.map (fun e => e.1) := by
  induction d with
  | nil => simp at h
  | cons e rest ih =>
    obtain ⟨a, b⟩ := e
    by_cases hka : k = a
    · simp [aset, hka]
    · rcases List.mem_cons.mp h with h1 | h1
      · exact absurd h1 hka
      · simp [aset, hka, ih h1]

theorem alookup_map_self (P : List Int) (f : Int → Int) (k : Int) :
    alookup (P.map (fun t => (t, f t))) k =
      if k ∈ P then some (f k) else none := by
  induction P with
  | nil => simp [alookup]
  | cons a rest ih =>
    by_cases h : k = a
    · simp [alookup, h]
    · simp [alookup, h, ih]

/-- An association list with key list `P` (no duplicates) is the map of
its own lookups over `P`. -/
theorem assoc_eq_map_keys (d : List (Int × Int)) (P : List Int)
    (hk : d.map (fun e => e.1) = P) (hnd : P.Nodup) :
    d = P.map (fun t => (t, dateLookup d t)) := by
  induction d generalizing P with
  | nil => simp at hk; simp [hk]
  | cons e rest ih =>
    obtain ⟨a, b⟩ := e
    cases P with
    | nil => simp at hk
    | cons p P' =>
      simp only [List.map_cons, List.cons.injEq] at hk
      obtain ⟨rfl, hk'⟩ := hk
      have hnd' := (List.nodup_cons.mp hnd).2
      have hp : a ∉ P' := (List.nodup_cons.mp hnd).1
      have hrest := ih P' hk' hnd'
      simp only [List.map_cons]
      have hhead : dateLookup ((a, b) :: rest) a = b := by
        simp [dateLookup, alookup]
      have htail : List.map (fun t => (t, dateLookup ((a, b) :: rest) t)) P'
          = List.map (fun t => (t, dateLookup rest t)) P' := by
        apply List.map_congr_left
        intro t ht
        have hta : ¬(t = a) := fun hh => hp (hh ▸ ht)
        simp [dateLookup, alookup, hta]
      rw [hhead, htail, ← hrest]

theorem alookup_isSome_aset {β : Type} (d : List (Int × β)) (k v w) :
    (alookup (aset d k v) w).isSome = ((alookup d w).isSome || decide (w = k)) := by
  rw [alookup_aset]
  by_cases h : w = k <;> simp [h]

theorem adjAppend_get (d : List (Int × List Int)) (k v k') :
    edgesGet (adjAppend d k v) k' =
      if k' = k then edgesGet d k ++ [v] else edgesGet d k' := by
  induction d with
  | nil =>
    by_cases h : k' = k <;> simp [adjAppend, edgesGet, alookup, h]
  | cons e rest ih =>
    obtain ⟨a, b⟩ := e
    by_cases hka : k = a
    · subst hka
      by_cases hk' : k' = k <;> simp [adjAppend, edgesGet, alookup, hk']
    · by_cases hk' : k' = a
      · subst hk'
        have : ¬(k' = k) := fun h => hka h.symm
        simp [adjAppend, edgesGet, alookup, hka, this]
      · simpa [adjAppend, edgesGet, alookup, hka, hk'] using ih

/-! ### The adjacency dicts agree with the filtered edge lists -/

theorem succsIn_cons (d : TaskDependency) (rest : List TaskDependency) (u : Int) :
    succsIn (d :: rest) u =
      (if d.predecessor_id = u then [d.successor_id] else []) ++ succsIn rest u := by
  by_cases h : d.predecessor_id = u <;>
    simp [succsIn, edgePairs, List.filter_cons, h]

theorem predsIn_cons (d : TaskDependency) (rest : List TaskDependency) (v : Int) :
    predsIn (d :: rest) v =
      (if d.successor_id = v then [d.predecessor_id] else []) ++ predsIn rest v := by
  by_cases h : d.successor_id = v <;>
    simp [predsIn, edgePairs, List.filter_cons, h]

/-- The fold of `buildAdj`, with open accumulators. -/
def adjFold (deps : List TaskDependency)
    (sp : List (Int × List Int) × List (Int × List Int)) :
    List (Int × List Int) × List (Int × List Int) :=
  deps.foldl
    (fun sp d =>
      (adjAppend sp.1 d.predecessor_id d.successor_id,
       adjAppend sp.2 d.successor_id d.predecessor_id))
    sp

theorem buildAdj_eq_adjFold (deps : List TaskDependency) :
    buildAdj deps = adjFold deps ([], []) := rfl

theorem adjFold_succ (deps : List TaskDependency) :
    ∀ s p u, edgesGet (adjFold deps (s, p)).1 u = edgesGet s u ++ succsIn deps u := by
  induction deps with
  | nil => intro s p u; simp [adjFold, succsIn, edgePairs]
  | cons d rest ih =>
    intro s p u
    show edgesGet (adjFold rest
      (adjAppend s d.predecessor_id d.successor_id,
       adjAppend p d.successor_id d.predecessor_id)).1 u = _
    rw [ih, succsIn_cons, adjAppend_get]
    by_cases h : u = d.predecessor_id
    · subst h
      simp [List.append_assoc]
    · have h' : ¬(d.predecessor_id = u) := fun hh => h hh.symm
      simp [h, h']

theorem adjFold_pred (deps : List TaskDependency) :
    ∀ s p v, edgesGet (adjFold deps (s, p)).2 v = edgesGet p v ++ predsIn deps v := by
  induction deps with
  | nil => intro s p v; simp [adjFold, predsIn, edgePairs]
  | cons d rest ih =>
    intro s p v
    show edgesGet (adjFold rest
      (adjAppend s d.predecessor_id d.successor_id,
       adjAppend p d.successor_id d.predecessor_id)).2 v = _
    rw [ih, predsIn_cons, adjAppend_get]
    by_cases h : v = d.successor_id
    · subst h
      simp [List.append_assoc]
    · have h' : ¬(d.successor_id = v) := fun hh => h hh.symm
      simp [h, h']

theorem buildAdj_succ (deps : List TaskDependency) (u : Int) :
    edgesGet (buildAdj deps).1 u = succsIn deps u := by
  rw [buildAdj_eq_adjFold, adjFold_succ]
  simp [edgesGet, alookup]

theorem buildAdj_pred (deps : List TaskDependency) (v : Int) :
    edgesGet (buildAdj deps).2 v = predsIn deps v := by
  rw [buildAdj_eq_adjFold, adjFold_pred]
  simp [edgesGet, alookup]

/-- All successor ids stored in an adjacency dict, bucket by bucket. -/
def bucketsFlat (adj : List (Int × List Int)) : List Int :=
  (adj.map (fun e => e.2)).flatten

theorem adjAppend_flat_perm (adj : List (Int × List Int)) (k v) :
    List.Perm (bucketsFlat (adjAppend adj k v)) (bucketsFlat adj ++ [v]) := by
  induction adj with
  | nil => simp [bucketsFlat, adjAppend]
  | cons e rest ih =>
    obtain ⟨a, vs⟩ := e
    by_cases hka : k = a
    · simp only [adjAppend, if_pos hka, bucketsFlat, List.map_cons, List.flatten_cons]
      have h2 : List.Perm (vs ++ ([v] ++ (rest.map (fun e => e.2)).flatten))
          (vs ++ ((rest.map (fun e => e.2)).flatten ++ [v])) :=
        List.Perm.append_left _ List.perm_append_comm
      rw [List.append_assoc vs [v], List.append_assoc vs]
      exact h2
    · simp only [adjAppend, if_neg hka, bucketsFlat, List.map_cons, List.flatten_cons]
      have h2 : List.Perm (vs ++ bucketsFlat (adjAppend rest k v))
          (vs ++ (bucketsFlat rest ++ [v])) := List.Perm.append_left _ ih
      rw [← List.append_assoc] at h2
      exact h2

theorem adjFold_flat_perm (deps : List TaskDependency) :
    ∀ s p, List.Perm (bucketsFlat (adjFold deps (s, p)).1)
      (bucketsFlat s ++ deps.map (fun d => d.successor_id)) := by
  induction deps with
  | nil => intro s p; simp [adjFold]
  | cons d rest ih =>
    intro s p
    have step1 : List.Perm (bucketsFlat (adjFold (d :: rest) (s, p)).1)
        (bucketsFlat (adjAppend s d.predecessor_id d.successor_id) ++
          rest.map (fun d => d.successor_id)) := ih _ _
    have step2 : List.Perm
        (bucketsFlat (adjAppend s d.predecessor_id d.successor_id) ++
          rest.map (fun d => d.successor_id))
        ((bucketsFlat s ++ [d.successor_id]) ++ rest.map (fun d => d.successor_id)) :=
      (adjAppend_flat_perm s _ _).append_right _
    have step3 : (bucketsFlat s ++ [d.successor_id]) ++ rest.map (fun d => d.successor_id)
        = bucketsFlat s ++ (d :: rest).map (fun d => d.successor_id) := by
      rw [List.append_assoc]; rfl
    exact (step1.trans step2).trans (step3 ▸ List.Perm.refl _)

theorem buildAdj_flat_perm (deps : List TaskDependency) :
    List.Perm (bucketsFlat (buildAdj deps).1)
      (deps.map (fun d => d.successor_id)) := by
  have := adjFold_flat_perm deps [] []
  rw [buildAdj_eq_adjFold]
  simpa [bucketsFlat] using this

/-! ### Specification of the in-degree map -/

/-- Running `indegree[v] += 1` over a list of successor ids. -/
def bumpAll (vs : List Int) (od : Option (List (Int × Int))) :
    Option (List (Int × Int)) :=
  vs.foldl (fun od' v => od'.bind (fun d => incr d v)) od

theorem bumpAll_none (vs : List Int) : bumpAll vs none = none := by
  induction vs with
  | nil => rfl
  | cons v rest ih => simpa [bumpAll] using ih

theorem bumpAll_cons (v : Int) (vs : List Int) (od) :
    bumpAll (v :: vs) od = bumpAll vs (od.bind (fun d => incr d v)) := rfl

theorem bumpAll_append (a b : List Int) (od) :
    bumpAll (a ++ b) od = bumpAll b (bumpAll a od) := by
  simp [bumpAll, List.foldl_append]

theorem buildIndegree_eq_bump (K : List Int) (adj : List (Int × List Int)) :
    buildIndegree K adj
      = bumpAll (bucketsFlat adj) (some (K.map (fun t => (t, 0)))) := by
  suffices h : ∀ od, adj.foldl
      (fun od e => e.2.foldl (fun od' v => od'.bind (fun d => incr d v)) od) od
      = bumpAll (bucketsFlat adj) od from h _
  induction adj with
  | nil => intro od; rfl
  | cons e rest ih =>
    intro od
    simp only [List.foldl_cons]
    rw [ih]
    have hflat : bucketsFlat (e :: rest) = e.2 ++ bucketsFlat rest := by
      simp [bucketsFlat]
    rw [hflat, bumpAll_append]
    rfl

theorem bumpAll_isSome (vs : List Int) : ∀ d : List (Int × Int),
    ((bumpAll vs (some d)).isSome = true)
      ↔ ∀ v ∈ vs, (alookup d v).isSome = true := by
  induction vs with
  | nil => intro d; simp [bumpAll]
  | cons v rest ih =>
    intro d
    cases h : alookup d v with
    | none =>
      have hz : bumpAll (v :: rest) (some d) = none := by
        rw [bumpAll_cons]
        simp [incr, h, bumpAll_none]
      rw [hz]
      simp only [Option.isSome_none, Bool.false_eq_true, false_iff]
      intro hall
      have := hall v (List.mem_cons_self v rest)
      rw [h] at this
      simp at this
    | some c =>
      have hstep : bumpAll (v :: rest) (some d)
          = bumpAll rest (some (aset d v (c + 1))) := by
        rw [bumpAll_cons]; simp [incr, h]
      rw [hstep, ih]
      constructor
      · intro hall w hw
        rcases List.mem_cons.mp hw with rfl | hw'
        · simp [h]
        · have hm := hall w hw'
          rw [alookup_isSome_aset] at hm
          have hm2 : (alookup d w).isSome = true ∨ w = v := by simpa using hm
          rcases hm2 with hm' | rfl
          · exact hm'
          · rw [h]; rfl
      · intro hall w hw
        rw [alookup_isSome_aset]
        have := hall w (List.mem_cons_of_mem _ hw)
        simp [this]

theorem bumpAll_lookup (vs : List Int) : ∀ d d' : List (Int × Int),
    bumpAll vs (some d) = some d' →
    ∀ t, alookup d' t = (alookup d t).map (fun c => c + (vs.count t : Int)) := by
  induction vs with
  | nil =>
    intro d d' h t
    have : d = d' := by simpa [bumpAll] using h
    subst this
    cases alookup d t <;> simp
  | cons v rest ih =>
    intro d d' h t
    cases hv : alookup d v with
    | none =>
      rw [bumpAll_cons] at h
      simp [incr, hv, bumpAll_none] at h
    | some c =>
      rw [bumpAll_cons] at h
      have hform : (some d).bind (fun d => incr d v) = some (aset d v (c + 1)) := by
        simp [incr, hv]
      rw [hform] at h
      have hrec := ih _ _ h t
      rw [alookup_aset] at hrec
      by_cases ht : t = v
      · subst ht
        rw [if_pos rfl] at hrec
        rw [hrec, hv]
        simp only [Option.map_some']
        congr 1
        have hc : List.count t (t :: rest) = List.count t rest + 1 := by
          simp [List.count_cons]
        rw [hc]
        push_cast
        ring
      · rw [if_neg ht] at hrec
        rw [hrec]
        have hc : List.count t (v :: rest) = List.count t rest := by
          simp [List.count_cons, ht]
        rw [hc]

theorem alookup_init (K : List Int) (k : Int) :
    alookup (K.map (fun t => (t, (0 : Int)))) k
      = if k ∈ K then some 0 else none := by
  induction K with
  | nil => simp [alookup]
  | cons a rest ih =>
    by_cases h : k = a <;> simp [alookup, h, ih]

theorem buildIndegree_isSome (K : List Int) (adj) :
    ((buildIndegree K adj).isSome = true) ↔ ∀ v ∈ bucketsFlat adj, v ∈ K := by
  rw [buildIndegree_eq_bump, bumpAll_isSome]
  constructor
  · intro hall v hv
    have := hall v hv
    rw [alookup_init] at this
    by_cases h : v ∈ K
    · exact h
    · rw [if_neg h] at this; simp at this
  · intro hall v hv
    rw [alookup_init, if_pos (hall v hv)]
    rfl

theorem buildIndegree_lookup (K : List Int) (adj) (d : List (Int × Int))
    (h : buildIndegree K adj = some d) (t : Int) :
    alookup d t
      = if t ∈ K then some (((bucketsFlat adj).count t : Int)) else none := by
  rw [buildIndegree_eq_bump] at h
  have hrec := bumpAll_lookup _ _ _ h t
  rw [alookup_init] at hrec
  by_cases ht : t ∈ K
  · rw [if_pos ht] at hrec ⊢
    rw [hrec]
    simp
  · rw [if_neg ht] at hrec ⊢
    rw [hrec]
    rfl

theorem cnt_nil_eq_count (deps : List TaskDependency) (t : Int) :
    cntRemaining (edgePairs deps) [] t
      = (deps.map (fun d => d.successor_id)).count t := by
  induction deps with
  | nil => rfl
  | cons d rest ih =>
    have hhead : cntRemaining (edgePairs (d :: rest)) [] t
        = (if d.successor_id = t then 1 else 0)
          + cntRemaining (edgePairs rest) [] t := by
      by_cases h : d.successor_id = t
      · simp [cntRemaining, edgePairs, List.filter_cons, h]
        omega
      · simp [cntRemaining, edgePairs, List.filter_cons, h]
    rw [hhead, ih]
    by_cases h : d.successor_id = t
    · subst h
      simp [List.count_cons]
      omega
    · have h' : ¬(t = d.successor_id) := fun hh => h hh.symm
      simp [List.count_cons, h, h']

/-! ### Kahn loop invariants -/

theorem filter_length_split (l : List (Int × Int)) (p q : Int × Int → Bool) :
    (l.filter p).length
      = (l.filter (fun x => p x && q x)).length
        + (l.filter (fun x => p x && !q x)).length := by
  induction l with
  | nil => rfl
  | cons x rest ih =>
    by_cases hp : p x
    · by_cases hq : q x <;> simp [List.filter_cons, hp, hq, ih] <;> omega
    · simp [List.filter_cons, hp, ih]

theorem count_map_filter (l : List (Int × Int)) (p : Int × Int → Bool)
    (f : Int × Int → Int) (y : Int) :
    ((l.filter p).map f).count y
      = (l.filter (fun x => p x && (f x == y))).length := by
  induction l with
  | nil => rfl
  | cons x rest ih =>
    by_cases hp : p x
    · by_cases hf : f x = y <;>
        simp [List.filter_cons, List.count_cons, hp, hf, ih]
    · simp [List.filter_cons, hp, ih]

/-- The in-degree `v` still carries, in the middle of processing `u`'s
successor bucket: edges from sources that are neither done nor `u`, plus
the not-yet-processed occurrences of `v` in `u`'s bucket. -/
def cntMid (E : List (Int × Int)) (done : List Int) (u : Int)
    (pending : List Int) (v : Int) : Nat :=
  (E.filter (fun e => e.2 == v && !(done.contains e.1) && !(e.1 == u))).length
    + pending.count v

theorem cntMid_cons (E : List (Int × Int)) (done u v₀ rest v) :
    cntMid E done u (v₀ :: rest) v
      = cntMid E done u rest v + (if v = v₀ then 1 else 0) := by
  by_cases h : v = v₀
  · simp [cntMid, List.count_cons, h]
    omega
  · simp [cntMid, List.count_cons, h]

theorem cntMid_nil (E : List (Int × Int)) (done u v) :
    cntMid E done u [] v = cntRemaining E (done ++ [u]) v := by
  simp only [cntMid, List.count_nil, Nat.add_zero, cntRemaining]
  congr 1
  apply List.filter_congr
  intro e _
  by_cases h2 : e.2 = v <;> by_cases hd : e.1 ∈ done <;> by_cases hu : e.1 = u <;>
    simp [h2, hd, hu]

theorem cntMid_start (E : List (Int × Int)) (done : List Int) (u : Int)
    (pending : List Int) (v : Int) (hu : u ∉ done)
    (hcount : pending.count v
      = (E.filter (fun e => e.1 == u && e.2 == v)).length) :
    cntMid E done u pending v = cntRemaining E done v := by
  have hdc : done.contains u = false := by simpa using hu
  rw [cntMid, hcount, cntRemaining]
  rw [filter_length_split E (fun e => e.2 == v && !(done.contains e.1))
    (fun e => e.1 == u)]
  have h1 : E.filter (fun e => (e.2 == v && !(done.contains e.1)) && e.1 == u)
      = E.filter (fun e => e.1 == u && e.2 == v) := by
    apply List.filter_congr
    intro e _
    by_cases h2 : e.2 = v
    · by_cases hu' : e.1 = u
      · rw [hu']
        simp [h2, hdc, hu]
      · simp [h2, hu']
    · have hb : (e.2 == v) = false := by simp [h2]
      simp [hb]
  rw [h1]
  omega

/-- Invariant of the state `(indeg, queue)` while the inner
`for v in edges[u]` fold of Kahn's algorithm processes the still-pending
tail of `u`'s successor bucket; `done` is the order built so far, `u` the
task just popped. -/
structure MidInv (deps : List TaskDependency) (K : List Int) (u : Int)
    (done : List Int) (pending : List Int)
    (indeg : List (Int × Int)) (queue : List Int) : Prop where
  val : ∀ v, alookup indeg v =
    if v ∈ K then some ((cntMid (edgePairs deps) done u pending v : Int)) else none
  queueK : ∀ v ∈ queue, v ∈ K
  queue0 : ∀ v ∈ queue, cntMid (edgePairs deps) done u pending v = 0
  nodup : (done ++ u :: queue).Nodup
  done0 : ∀ v ∈ done ++ [u], cntMid (edgePairs deps) done u pending v = 0
  pendK : ∀ v ∈ pending, v ∈ K
  stuck : ∀ v ∈ K, v ∉ done ++ [u] → v ∉ queue →
    cntMid (edgePairs deps) done u pending v ≠ 0

theorem kahnStep_midinv (deps : List TaskDependency) (K : List Int)
    (u : Int) (done : List Int) (v₀ : Int) (rest : List Int)
    (indeg : List (Int × Int)) (queue : List Int)
    (h : MidInv deps K u done (v₀ :: rest) indeg queue) :
    MidInv deps K u done rest
      (kahnStepSucc indeg queue v₀).1 (kahnStepSucc indeg queue v₀).2 := by
  have hv₀K : v₀ ∈ K := h.pendK v₀ (List.mem_cons_self _ _)
  have hval₀ := h.val v₀
  rw [if_pos hv₀K] at hval₀
  have hc1 : cntMid (edgePairs deps) done u (v₀ :: rest) v₀
      = cntMid (edgePairs deps) done u rest v₀ + 1 := by
    rw [cntMid_cons]; simp
  have hkeep : ∀ v, v ≠ v₀ → cntMid (edgePairs deps) done u (v₀ :: rest) v
      = cntMid (edgePairs deps) done u rest v := by
    intro v hv
    rw [cntMid_cons, if_neg hv]
    omega
  have hv₀Q : v₀ ∉ queue := by
    intro hmem
    have := h.queue0 v₀ hmem
    omega
  have hv₀DU : v₀ ∉ done ++ [u] := by
    intro hmem
    have := h.done0 v₀ hmem
    omega
  have hdone' : ∀ v ∈ done ++ [u],
      cntMid (edgePairs deps) done u rest v = 0 := by
    intro v hv
    have h0 := h.done0 v hv
    rw [cntMid_cons] at h0
    omega
  have hcast : ((cntMid (edgePairs deps) done u (v₀ :: rest) v₀ : Nat) : Int) - 1
      = (cntMid (edgePairs deps) done u rest v₀ : Int) := by
    rw [hc1]; push_cast; ring
  have hstep : kahnStepSucc indeg queue v₀
      = (aset indeg v₀ ((cntMid (edgePairs deps) done u rest v₀ : Int)),
         if (cntMid (edgePairs deps) done u rest v₀ : Int) = 0
           then queue ++ [v₀] else queue) := by
    simp only [kahnStepSucc, hval₀, hcast]
  rw [hstep]
  by_cases hm0 : cntMid (edgePairs deps) done u rest v₀ = 0
  · have hif : ((cntMid (edgePairs deps) done u rest v₀ : Int) = 0) := by
      simp [hm0]
    simp only [if_pos hif]
    refine ⟨?_, ?_, ?_, ?_, ?_, ?_, ?_⟩
    · intro v
      rw [alookup_aset]
      by_cases hv : v = v₀
      · subst hv
        rw [if_pos rfl, if_pos hv₀K]
      · rw [if_neg hv, h.val v]
        by_cases hvK : v ∈ K
        · rw [if_pos hvK, if_pos hvK, hkeep v hv]
        · rw [if_neg hvK, if_neg hvK]
    · intro v hv
      rcases List.mem_append.mp hv with hv | hv
      · exact h.queueK v hv
      · rw [List.mem_singleton.mp hv]; exact hv₀K
    · intro v hv
      rcases List.mem_append.mp hv with hv | hv
      · have hne : v ≠ v₀ := fun hh => hv₀Q (hh ▸ hv)
        rw [← hkeep v hne]
        exact h.queue0 v hv
      · rw [List.mem_singleton.mp hv]
        exact hm0
    · have hnot : v₀ ∉ done ++ u :: queue := by
        intro hmem
        rcases List.mem_append.mp hmem with hmem | hmem
        · exact hv₀DU (List.mem_append.mpr (Or.inl hmem))
        · rcases List.mem_cons.mp hmem with hmem | hmem
          · exact hv₀DU (by simp [hmem])
          · exact hv₀Q hmem
      have hform : ((done ++ u :: queue) ++ [v₀]).Nodup := by
        apply List.Nodup.append h.nodup (List.nodup_singleton v₀)
        intro a ha hb
        rw [List.mem_singleton] at hb
        exact hnot (hb ▸ ha)
      simpa using hform
    · exact hdone'
    · intro v hv
      exact h.pendK v (List.mem_cons_of_mem _ hv)
    · intro v hvK hvDU hvQ
      by_cases hv : v = v₀
      · subst hv
        exact absurd (List.mem_append.mpr (Or.inr (List.mem_singleton.mpr rfl))) hvQ
      · rw [← hkeep v hv]
        exact h.stuck v hvK hvDU (fun hq => hvQ (List.mem_append.mpr (Or.inl hq)))
  · have hif : ¬((cntMid (edgePairs deps) done u rest v₀ : Int) = 0) := by
      simpa using hm0
    simp only [if_neg hif]
    refine ⟨?_, h.queueK, ?_, h.nodup, hdone', ?_, ?_⟩
    · intro v
      rw [alookup_aset]
      by_cases hv : v = v₀
      · subst hv
        rw [if_pos rfl, if_pos hv₀K]
      · rw [if_neg hv, h.val v]
        by_cases hvK : v ∈ K
        · rw [if_pos hvK, if_pos hvK, hkeep v hv]
        · rw [if_neg hvK, if_neg hvK]
    · intro v hv
      have hne : v ≠ v₀ := fun hh => hv₀Q (hh ▸ hv)
      rw [← hkeep v hne]
      exact h.queue0 v hv
    · intro v hv
      exact h.pendK v (List.mem_cons_of_mem _ hv)
    · intro v hvK hvDU hvQ
      by_cases hv : v = v₀
      · subst hv
        exact hm0
      · rw [← hkeep v hv]
        exact h.stuck v hvK hvDU hvQ

theorem kahnFold_midinv (deps : List TaskDependency) (K : List Int)
    (u : Int) (done : List Int) :
    ∀ (pending : List Int) (indeg : List (Int × Int)) (queue : List Int),
    MidInv deps K u done pending indeg queue →
    MidInv deps K u done []
      (pending.foldl (fun q v => kahnStepSucc q.1 q.2 v) (indeg, queue)).1
      (pending.foldl (fun q v => kahnStepSucc q.1 q.2 v) (indeg, queue)).2 := by
  intro pending
  induction pending with
  | nil => intro indeg queue h; exact h
  | cons v₀ rest ih =>
    intro indeg queue h
    have hstep := kahnStep_midinv deps K u done v₀ rest indeg queue h
    simpa using ih (kahnStepSucc indeg queue v₀).1 (kahnStepSucc indeg queue v₀).2 hstep

/-- Invariant of `(indeg, queue, order)` between iterations of the
`while queue` loop of `_topological_order`. -/
structure LoopInv (deps : List TaskDependency) (K : List Int)
    (indeg : List (Int × Int)) (queue order : List Int) : Prop where
  val : ∀ v, alookup indeg v =
    if v ∈ K then some ((cntRemaining (edgePairs deps) order v : Int)) else none
  queueK : ∀ v ∈ queue, v ∈ K
  queue0 : ∀ v ∈ queue, cntRemaining (edgePairs deps) order v = 0
  nodup : (order ++ queue).Nodup
  orderK : ∀ v ∈ order, v ∈ K
  done0 : ∀ v ∈ order, cntRemaining (edgePairs deps) order v = 0
  stuck : ∀ v ∈ K, v ∉ order → v ∉ queue →
    cntRemaining (edgePairs deps) order v ≠ 0
  sorted : ∀ e ∈ edgePairs deps, e.2 ∈ order →
    ∃ p q, order = p ++ e.2 :: q ∧ e.1 ∈ p

theorem succsIn_count (deps : List TaskDependency) (u v : Int) :
    (succsIn deps u).count v
      = ((edgePairs deps).filter (fun e => e.1 == u && e.2 == v)).length := by
  have h := count_map_filter (edgePairs deps) (fun e => e.1 == u)
    (fun e => e.2) v
  simpa [succsIn] using h

theorem succsIn_mem_K (deps : List TaskDependency) (K : List Int)
    (hVS : ∀ e ∈ edgePairs deps, e.2 ∈ K) (u : Int) :
    ∀ v ∈ succsIn deps u, v ∈ K := by
  intro v hv
  rcases List.mem_map.mp hv with ⟨e, he, rfl⟩
  exact hVS e (List.mem_filter.mp he).1

/-- Popping `u` off the queue turns the loop invariant into the starting
invariant of the inner fold over `u`'s successor bucket. -/
theorem loopInv_to_midInv (deps : List TaskDependency) (K : List Int)
    (indeg : List (Int × Int)) (u : Int) (rest order : List Int)
    (hVS : ∀ e ∈ edgePairs deps, e.2 ∈ K)
    (h : LoopInv deps K indeg (u :: rest) order) :
    MidInv deps K u order (succsIn deps u) indeg rest := by
  have huq : u ∈ u :: rest := List.mem_cons_self _ _
  have huO : u ∉ order := by
    intro hmem
    have := h.nodup
    rw [List.nodup_append] at this
    exact this.2.2 hmem huq
  have hcnt : ∀ v, cntMid (edgePairs deps) order u (succsIn deps u) v
      = cntRemaining (edgePairs deps) order v := by
    intro v
    exact cntMid_start _ _ _ _ _ huO (succsIn_count deps u v)
  refine ⟨?_, ?_, ?_, ?_, ?_, ?_, ?_⟩
  · intro v
    rw [h.val v]
    by_cases hvK : v ∈ K
    · rw [if_pos hvK, if_pos hvK, hcnt v]
    · rw [if_neg hvK, if_neg hvK]
  · intro v hv
    exact h.queueK v (List.mem_cons_of_mem _ hv)
  · intro v hv
    rw [hcnt v]
    exact h.queue0 v (List.mem_cons_of_mem _ hv)
  · exact h.nodup
  · intro v hv
    rw [hcnt v]
    rcases List.mem_append.mp hv with hv | hv
    · exact h.done0 v hv
    · rw [List.mem_singleton.mp hv]
      exact h.queue0 u huq
  · exact succsIn_mem_K deps K hVS u
  · intro v hvK hvDU hvR
    rw [hcnt v]
    have hvO : v ∉ order := fun hm => hvDU (List.mem_append.mpr (Or.inl hm))
    have hvQ : v ∉ u :: rest := by
      intro hm
      rcases List.mem_cons.mp hm with hm | hm
      · exact hvDU (by simp [hm])
      · exact hvR hm
    exact h.stuck v hvK hvO hvQ

/-- After the inner fold finishes, the loop invariant holds again with `u`
appended to the order. -/
theorem midInv_to_loopInv (deps : List TaskDependency) (K : List Int)
    (indeg₀ indeg' : List (Int × Int)) (u : Int)
    (rest order queue' : List Int)
    (h : LoopInv deps K indeg₀ (u :: rest) order)
    (hmid : MidInv deps K u order [] indeg' queue') :
    LoopInv deps K indeg' queue' (order ++ [u]) := by
  have huK : u ∈ K := h.queueK u (List.mem_cons_self _ _)
  refine ⟨?_, hmid.queueK, ?_, ?_, ?_, ?_, ?_, ?_⟩
  · intro v
    rw [hmid.val v, ← cntMid_nil]
  · intro v hv
    rw [← cntMid_nil]
    exact hmid.queue0 v hv
  · have := hmid.nodup
    simpa using this
  · intro v hv
    rcases List.mem_append.mp hv with hv | hv
    · exact h.orderK v hv
    · rw [List.mem_singleton.mp hv]
      exact huK
  · intro v hv
    rw [← cntMid_nil]
    exact hmid.done0 v hv
  · intro v hvK hvO hvQ
    rw [← cntMid_nil]
    exact hmid.stuck v hvK hvO hvQ
  · intro e he hmem
    rcases List.mem_append.mp hmem with hmem | hmem
    · rcases h.sorted e he hmem with ⟨p, q, horder, hep⟩
      refine ⟨p, q ++ [u], ?_, hep⟩
      rw [horder]
      simp
    · rw [List.mem_singleton.mp hmem]
      refine ⟨order, [], rfl, ?_⟩
      -- every in-edge of u comes from the processed order: its pending
      -- in-degree was 0 when it was popped
      have h0 := h.queue0 u (List.mem_cons_self _ _)
      by_contra hnot
      have hpred : (fun e => e.2 == u && !(order.contains e.1)) e = true := by
        have h2 : (e.2 == u) = true := by
          rw [List.mem_singleton.mp hmem]; simp
        simp [h2, hnot]
      have hmemf : e ∈ (edgePairs deps).filter
          (fun e => e.2 == u && !(order.contains e.1)) :=
        List.mem_filter.mpr ⟨he, hpred⟩
      rw [cntRemaining, List.length_eq_zero] at h0
      rw [h0] at hmemf
      exact absurd hmemf (List.not_mem_nil e)

theorem kahnLoop_spec (deps : List TaskDependency) (K : List Int)
    (edges : List (Int × List Int))
    (hAdj : ∀ w, edgesGet edges w = succsIn deps w)
    (hVS : ∀ e ∈ edgePairs deps, e.2 ∈ K) :
    ∀ (fuel : Nat) (indeg : List (Int × Int)) (queue order : List Int),
    LoopInv deps K indeg queue order →
    K.length + 1 ≤ order.length + fuel →
    ∃ indeg', LoopInv deps K indeg' []
      (kahnLoop edges fuel indeg queue order) := by
  intro fuel
  induction fuel with
  | zero =>
    intro indeg queue order h hlen
    cases queue with
    | nil => exact ⟨indeg, h⟩
    | cons u rest =>
      exfalso
      have hsub : ∀ x ∈ order ++ u :: rest, x ∈ K := by
        intro x hx
        rcases List.mem_append.mp hx with hx | hx
        · exact h.orderK x hx
        · exact h.queueK x hx
      have hsp := List.subperm_of_subset h.nodup hsub
      have hlen2 := hsp.length_le
      simp [List.length_append] at hlen2
      omega
  | succ fuel ih =>
    intro indeg queue order h hlen
    cases queue with
    | nil => exact ⟨indeg, h⟩
    | cons u rest =>
      have hmid := loopInv_to_midInv deps K indeg u rest order hVS h
      have hfold := kahnFold_midinv deps K u order (succsIn deps u) indeg rest hmid
      have hloop' := midInv_to_loopInv deps K indeg
        ((succsIn deps u).foldl (fun q v => kahnStepSucc q.1 q.2 v) (indeg, rest)).1
        u rest order
        ((succsIn deps u).foldl (fun q v => kahnStepSucc q.1 q.2 v) (indeg, rest)).2
        h hfold
      have hunfold : kahnLoop edges (fuel + 1) indeg (u :: rest) order
          = kahnLoop edges fuel
              ((succsIn deps u).foldl (fun q v => kahnStepSucc q.1 q.2 v) (indeg, rest)).1
              ((succsIn deps u).foldl (fun q v => kahnStepSucc q.1 q.2 v) (indeg, rest)).2
              (order ++ [u]) := by
        rw [← hAdj u]
        rfl
      rw [hunfold]
      apply ih _ _ _ hloop'
      simp [List.length_append]
      omega

theorem topologicalOrder_eq_none (K : List Int) (edges : List (Int × List Int))
    (hb : buildIndegree K edges = none) :
    topologicalOrder K edges = .error .keyError := by
  unfold topologicalOrder
  rw [hb]

theorem topologicalOrder_eq_some (K : List Int) (edges : List (Int × List Int))
    (d : List (Int × Int)) (hb : buildIndegree K edges = some d) :
    topologicalOrder K edges
      = (if (kahnLoop edges (K.length + 1) d
              (K.filter (fun t => alookup d t == some 0)) []).length = K.length
         then .ok (kahnLoop edges (K.length + 1) d
              (K.filter (fun t => alookup d t == some 0)) [])
         else .error .cycleError) := by
  unfold topologicalOrder
  rw [hb]

theorem initial_loopInv (deps : List TaskDependency) (K : List Int)
    (hK : K.Nodup) (d : List (Int × Int))
    (hd : buildIndegree K (buildAdj deps).1 = some d) :
    LoopInv deps K d (K.filter (fun t => alookup d t == some 0)) [] := by
  have hval : ∀ t, alookup d t =
      if t ∈ K then some ((cntRemaining (edgePairs deps) [] t : Int)) else none := by
    intro t
    rw [buildIndegree_lookup K _ d hd t]
    by_cases ht : t ∈ K
    · rw [if_pos ht, if_pos ht]
      congr 2
      rw [cnt_nil_eq_count]
      exact (buildAdj_flat_perm deps).count_eq t
    · rw [if_neg ht, if_neg ht]
  refine ⟨hval, ?_, ?_, ?_, ?_, ?_, ?_, ?_⟩
  · intro v hv
    exact (List.mem_filter.mp hv).1
  · intro v hv
    obtain ⟨hvK, hpred⟩ := List.mem_filter.mp hv
    have : alookup d v = some 0 := by simpa using hpred
    rw [hval v, if_pos hvK] at this
    have := Option.some.inj this
    omega
  · simpa using hK.filter _
  · intro v hv
    exact absurd hv (List.not_mem_nil v)
  · intro v hv
    exact absurd hv (List.not_mem_nil v)
  · intro v hvK hvO hvQ
    intro hc
    apply hvQ
    apply List.mem_filter.mpr
    refine ⟨hvK, ?_⟩
    have : alookup d v = some 0 := by
      rw [hval v, if_pos hvK, hc]
      rfl
    simp [this]
  · intro e he hmem
    exact absurd hmem (List.not_mem_nil _)

/-- The whole run of `_topological_order` once the in-degree map was built:
there is a final state satisfying the loop invariant with an empty queue,
and the returned value is decided by whether its order is complete. -/
theorem topologicalOrder_run (deps : List TaskDependency) (K : List Int)
    (hK : K.Nodup) (d : List (Int × Int))
    (hb : buildIndegree K (buildAdj deps).1 = some d) :
    ∃ indeg' order', LoopInv deps K indeg' [] order' ∧
      topologicalOrder K (buildAdj deps).1
        = (if order'.length = K.length then .ok order'
           else .error .cycleError) := by
  have hVS : ∀ e ∈ edgePairs deps, e.2 ∈ K := by
    have hs := (buildIndegree_isSome K (buildAdj deps).1).mp (by rw [hb]; rfl)
    intro e he
    have hmem : e.2 ∈ deps.map (fun d => d.successor_id) := by
      rcases List.mem_map.mp he with ⟨dp, hdp, rfl⟩
      exact List.mem_map.mpr ⟨dp, hdp, rfl⟩
    exact hs _ ((buildAdj_flat_perm deps).mem_iff.mpr hmem)
  have hinit := initial_loopInv deps K hK d hb
  have hrun := kahnLoop_spec deps K (buildAdj deps).1
    (fun w => buildAdj_succ deps w) hVS (K.length + 1) d
    (K.filter (fun t => alookup d t == some 0)) [] hinit (by simp)
  rcases hrun with ⟨indeg', hfin⟩
  exact ⟨indeg', _, hfin, topologicalOrder_eq_some K _ d hb⟩

/-- What a successful `_topological_order` guarantees: the order is a
permutation of the task ids and every edge points forward in it. -/
structure TopoFacts (deps : List TaskDependency) (K : List Int)
    (order : List Int) : Prop where
  perm : order.Perm K
  sorted : ∀ e ∈ edgePairs deps, ∃ p q, order = p ++ e.2 :: q ∧ e.1 ∈ p

theorem loopInv_final_facts (deps : List TaskDependency) (K : List Int)
    (indeg' : List (Int × Int)) (order : List Int)
    (hfin : LoopInv deps K indeg' [] order)
    (hVS : ∀ e ∈ edgePairs deps, e.2 ∈ K)
    (hlen : order.length = K.length) :
    TopoFacts deps K order := by
  have hnd : order.Nodup := by simpa using hfin.nodup
  have hsub : order ⊆ K := fun x hx => hfin.orderK x hx
  have hperm : order.Perm K :=
    (List.subperm_of_subset hnd hsub).perm_of_length_le (by omega)
  refine ⟨hperm, ?_⟩
  intro e he
  exact hfin.sorted e he (hperm.mem_iff.mpr (hVS e he))

theorem buildIndegree_succ_valid (deps : List TaskDependency) (K : List Int)
    (d : List (Int × Int)) (hb : buildIndegree K (buildAdj deps).1 = some d) :
    ∀ e ∈ edgePairs deps, e.2 ∈ K := by
  have hs := (buildIndegree_isSome K (buildAdj deps).1).mp (by rw [hb]; rfl)
  intro e he
  have hmem : e.2 ∈ deps.map (fun d => d.successor_id) := by
    rcases List.mem_map.mp he with ⟨dp, hdp, rfl⟩
    exact List.mem_map.mpr ⟨dp, hdp, rfl⟩
  exact hs _ ((buildAdj_flat_perm deps).mem_iff.mpr hmem)

theorem topologicalOrder_ok_facts (deps : List TaskDependency) (K : List Int)
    (hK : K.Nodup) (order : List Int)
    (h : topologicalOrder K (buildAdj deps).1 = .ok order) :
    TopoFacts deps K order := by
  cases hb : buildIndegree K (buildAdj deps).1 with
  | none =>
    rw [topologicalOrder_eq_none K _ hb] at h
    exact absurd h (by simp)
  | some d =>
    rcases topologicalOrder_run deps K hK d hb with ⟨indeg', order', hfin, heq⟩
    rw [heq] at h
    by_cases hlen : order'.length = K.length
    · rw [if_pos hlen] at h
      have : order' = order := Except.ok.inj h
      subst this
      exact loopInv_final_facts deps K indeg' order' hfin
        (buildIndegree_succ_valid deps K d hb) hlen
    · rw [if_neg hlen] at h
      exact absurd h (by simp)

/-! ### Cycles: a topological order excludes them, a stuck loop yields one -/

theorem indexOf_cons_ne (a b : Int) (l : List Int) (h : a ≠ b) :
    (b :: l).indexOf a = l.indexOf a + 1 := by
  have hb : (b == a) = false := by simp [Ne.symm h]
  simp [List.indexOf_cons, hb]

theorem indexOf_split (b : Int) : ∀ (p q : List Int),
    (p ++ b :: q).Nodup → (p ++ b :: q).indexOf b = p.length := by
  intro p
  induction p with
  | nil =>
    intro q hnd
    simp [List.indexOf_cons]
  | cons c p' ih =>
    intro q hnd
    have hcb : b ≠ c := by
      intro hh
      have := (List.nodup_cons.mp hnd).1
      exact this (by simp [hh])
    rw [List.cons_append, indexOf_cons_ne b c _ hcb,
      ih q (List.nodup_cons.mp hnd).2]
    rfl

theorem indexOf_mem_prefix (a : Int) : ∀ (p rest : List Int), a ∈ p →
    (p ++ rest).indexOf a < p.length := by
  intro p
  induction p with
  | nil => intro rest h; simp at h
  | cons c p' ih =>
    intro rest h
    by_cases hac : a = c
    · subst hac
      simp [List.indexOf_cons]
    · rw [List.cons_append, indexOf_cons_ne a c _ hac]
      have : a ∈ p' := by
        rcases List.mem_cons.mp h with h | h
        · exact absurd h hac
        · exact h
      have := ih rest this
      simpa using Nat.succ_lt_succ this

/-- In a topologically sorted order, every edge increases the index. -/
theorem topoFacts_edge_lt (deps : List TaskDependency) (K order : List Int)
    (htf : TopoFacts deps K order) (hK : K.Nodup) :
    ∀ e ∈ edgePairs deps, order.indexOf e.1 < order.indexOf e.2 := by
  intro e he
  rcases htf.sorted e he with ⟨p, q, hsplit, hmem⟩
  have hnd : order.Nodup := htf.perm.nodup_iff.mpr hK
  have h2 : order.indexOf e.2 = p.length := by
    rw [hsplit] at hnd ⊢
    exact indexOf_split e.2 p q hnd
  have h1 : order.indexOf e.1 < p.length := by
    rw [hsplit]
    exact indexOf_mem_prefix e.1 p (e.2 :: q) hmem
  omega

theorem band_split (a b : Bool) (h : (a && b) = true) :
    a = true ∧ b = true := by
  simp at h
  exact h

theorem chainB_getLast (E : List (Int × Int)) (f : Int → Nat)
    (hedge : ∀ e ∈ E, f e.1 < f e.2) :
    ∀ (l : List Int) (s b : Int), chainB E s l = true →
      l.getLast? = some b → f s < f b := by
  intro l
  induction l with
  | nil => intro s b hc hb; simp at hb
  | cons c rest ih =>
    intro s b hc hb
    have hc' := hc
    rw [chainB] at hc'
    have hsplit := band_split _ _ hc'
    have hmem : (s, c) ∈ E := by simpa using hsplit.1
    have hfirst : f s < f c := hedge (s, c) hmem
    cases rest with
    | nil =>
      simp at hb
      rw [← hb]
      exact hfirst
    | cons d rest' =>
      have hlast : (d :: rest').getLast? = some b := by
        simpa [List.getLast?_cons_cons] using hb
      exact Nat.lt_trans hfirst (ih c b hsplit.2 hlast)

theorem no_cycle_of_topoFacts (deps : List TaskDependency) (K order : List Int)
    (htf : TopoFacts deps K order) (hK : K.Nodup) :
    ¬ HasCycle deps K := by
  rintro ⟨c, hc⟩
  cases c with
  | nil => simp [cycleOK] at hc
  | cons x xs =>
    rw [cycleOK] at hc
    have hparts := band_split _ _ hc
    have hchain : chainB (edgePairs deps) x (xs ++ [x]) = true := hparts.2
    have hlast : (xs ++ [x]).getLast? = some x := by simp
    have := chainB_getLast (edgePairs deps) (fun t => order.indexOf t)
      (topoFacts_edge_lt deps K order htf hK) (xs ++ [x]) x x hchain hlast
    omega

theorem chainB_suffix (E : List (Int × Int)) :
    ∀ (l₁ : List Int) (a x : Int) (l₂ : List Int),
    chainB E a (l₁ ++ x :: l₂) = true → chainB E x l₂ = true := by
  intro l₁
  induction l₁ with
  | nil =>
    intro a x l₂ h
    rw [List.nil_append, chainB] at h
    exact (band_split _ _ h).2
  | cons b rest ih =>
    intro a x l₂ h
    rw [List.cons_append, chainB] at h
    exact ih b x l₂ (band_split _ _ h).2

theorem chainB_prefix (E : List (Int × Int)) :
    ∀ (l₁ : List Int) (a x : Int) (l₂ : List Int),
    chainB E a (l₁ ++ x :: l₂) = true → chainB E a (l₁ ++ [x]) = true := by
  intro l₁
  induction l₁ with
  | nil =>
    intro a x l₂ h
    rw [List.nil_append, chainB] at h
    rw [List.nil_append, chainB]
    have hm : (a, x) ∈ E := by simpa using (band_split _ _ h).1
    simp [hm, chainB]
  | cons b rest ih =>
    intro a x l₂ h
    rw [List.cons_append, chainB] at h
    rw [List.cons_append, chainB]
    have hm : (a, b) ∈ E := by simpa using (band_split _ _ h).1
    simp [hm, ih b x l₂ (band_split _ _ h).2]

theorem exists_dup_decomp : ∀ (l : List Int), ¬ l.Nodup →
    ∃ x p q r, l = p ++ x :: q ++ x :: r := by
  intro l
  induction l with
  | nil => intro h; simp at h
  | cons a rest ih =>
    intro h
    by_cases ha : a ∈ rest
    · rcases List.append_of_mem ha with ⟨q, r, hqr⟩
      exact ⟨a, [], q, r, by simp [hqr]⟩
    · have hrest : ¬ rest.Nodup := by
        intro hn
        exact h (List.nodup_cons.mpr ⟨ha, hn⟩)
      rcases ih hrest with ⟨x, p, q, r, hpr⟩
      exact ⟨x, a :: p, q, r, by simp [hpr]⟩

theorem chainB_of_cons_decomp (E : List (Int × Int)) (a : Int) (l p : List Int)
    (x : Int) (R : List Int) (hdec : a :: l = p ++ x :: R)
    (hchain : chainB E a l = true) : chainB E x R = true := by
  cases p with
  | nil =>
    rw [List.nil_append] at hdec
    obtain ⟨rfl, rfl⟩ := List.cons.inj hdec
    exact hchain
  | cons b p' =>
    rw [List.cons_append] at hdec
    obtain ⟨rfl, hl⟩ := List.cons.inj hdec
    rw [hl] at hchain
    exact chainB_suffix E p' a x R hchain

theorem stuck_chain (E : List (Int × Int)) (S : List Int)
    (hstep : ∀ v ∈ S, ∃ u ∈ S, (u, v) ∈ E) (v₀ : Int) (hv₀ : v₀ ∈ S) :
    ∀ n : Nat, ∃ a l, a ∈ S ∧ (∀ x ∈ l, x ∈ S) ∧ l.length = n
      ∧ chainB E a l = true := by
  intro n
  induction n with
  | zero => exact ⟨v₀, [], hv₀, by simp, rfl, rfl⟩
  | succ n ih =>
    rcases ih with ⟨a, l, haS, hlS, hlen, hchain⟩
    rcases hstep a haS with ⟨u, huS, hedge⟩
    refine ⟨u, a :: l, huS, ?_, by simp [hlen], ?_⟩
    · intro x hx
      rcases List.mem_cons.mp hx with rfl | hx
      · exact haS
      · exact hlS x hx
    · rw [chainB]
      simp [hchain, hedge]

theorem cycle_of_stuck (deps : List TaskDependency) (K S : List Int)
    (hSsub : ∀ x ∈ S, x ∈ K) (hSnd : S.Nodup) (hne : S ≠ [])
    (hstep : ∀ v ∈ S, ∃ u ∈ S, (u, v) ∈ edgePairs deps) :
    HasCycle deps K := by
  obtain ⟨v₀, hv₀⟩ : ∃ v, v ∈ S := by
    cases S with
    | nil => exact absurd rfl hne
    | cons a rest => exact ⟨a, List.mem_cons_self _ _⟩
  obtain ⟨a, l, haS, hlS, hlen, hchain⟩ :=
    stuck_chain (edgePairs deps) S hstep v₀ hv₀ S.length
  have hnodup : ¬ (a :: l).Nodup := by
    intro hn
    have hsub2 : (a :: l) ⊆ S := by
      intro x hx
      rcases List.mem_cons.mp hx with rfl | hx
      · exact haS
      · exact hlS x hx
    have := (List.subperm_of_subset hn hsub2).length_le
    simp [hlen] at this
  rcases exists_dup_decomp _ hnodup with ⟨x, p, q, r, hdecomp⟩
  have hchain2 : chainB (edgePairs deps) x (q ++ x :: r) = true :=
    chainB_of_cons_decomp (edgePairs deps) a l p x (q ++ x :: r)
      (by rw [hdecomp]; simp [List.append_assoc]) hchain
  have hcyc : chainB (edgePairs deps) x (q ++ [x]) = true :=
    chainB_prefix (edgePairs deps) q x x r hchain2
  refine ⟨x :: q, ?_⟩
  rw [cycleOK]
  have hmemS : ∀ y ∈ x :: q, y ∈ S := by
    intro y hy
    have hmem2 : y ∈ a :: l := by
      rw [hdecomp]
      rcases List.mem_cons.mp hy with rfl | hy
      · simp
      · simp [hy]
    rcases List.mem_cons.mp hmem2 with rfl | hx2
    · exact haS
    · exact hlS y hx2
  have hxK : x ∈ K := hSsub x (hmemS x (List.mem_cons_self _ _))
  have hqK : ∀ y ∈ q, y ∈ K :=
    fun y hy => hSsub y (hmemS y (List.mem_cons_of_mem _ hy))
  simp [hcyc, hxK]
  exact hqK

/-- All edge successor ids belong to the task id list. -/
def ValidSucc (deps : List TaskDependency) (K : List Int) : Prop :=
  ∀ e ∈ edgePairs deps, e.2 ∈ K

/-- All edge predecessor ids belong to the task id list. -/
def ValidPred (deps : List TaskDependency) (K : List Int) : Prop :=
  ∀ e ∈ edgePairs deps, e.1 ∈ K

/-- If the loop drained its queue but ordered fewer ids than there are
tasks, and no edge has a dangling predecessor, the leftover ids contain a
cycle. -/
theorem incomplete_to_stuck (deps : List TaskDependency) (K : List Int)
    (hK : K.Nodup) (indeg' : List (Int × Int)) (order : List Int)
    (hfin : LoopInv deps K indeg' [] order)
    (hVP : ValidPred deps K)
    (hlen : order.length ≠ K.length) :
    HasCycle deps K := by
  have hSsub : ∀ x ∈ K.filter (fun t => !(order.contains t)), x ∈ K :=
    fun x hx => (List.mem_filter.mp hx).1
  have hSnotord : ∀ x ∈ K.filter (fun t => !(order.contains t)), x ∉ order := by
    intro x hx
    have := (List.mem_filter.mp hx).2
    simpa using this
  have hSnd : (K.filter (fun t => !(order.contains t))).Nodup := hK.filter _
  have hne : K.filter (fun t => !(order.contains t)) ≠ [] := by
    intro hSnil
    have hKord : ∀ t ∈ K, t ∈ order := by
      intro t ht
      by_contra hto
      have hmem : t ∈ K.filter (fun t => !(order.contains t)) :=
        List.mem_filter.mpr ⟨ht, by simpa using hto⟩
      rw [hSnil] at hmem
      exact absurd hmem (List.not_mem_nil t)
    have hnd : order.Nodup := by simpa using hfin.nodup
    have h1 := (List.subperm_of_subset hnd
      (fun x hx => hfin.orderK x hx)).length_le
    have h2 := (List.subperm_of_subset hK hKord).length_le
    omega
  apply cycle_of_stuck deps K (K.filter (fun t => !(order.contains t)))
    hSsub hSnd hne
  intro v hv
  have hvK := hSsub v hv
  have hvO := hSnotord v hv
  have hcnt := hfin.stuck v hvK hvO (List.not_mem_nil v)
  rw [cntRemaining] at hcnt
  obtain ⟨e, hemem⟩ : ∃ e, e ∈ (edgePairs deps).filter
      (fun e => e.2 == v && !(order.contains e.1)) := by
    cases hc : (edgePairs deps).filter
        (fun e => e.2 == v && !(order.contains e.1)) with
    | nil => rw [hc] at hcnt; exact absurd rfl hcnt
    | cons e rest => exact ⟨e, List.mem_cons_self _ _⟩
  obtain ⟨heE, hpred⟩ := List.mem_filter.mp hemem
  have hparts := band_split _ _ hpred
  have he2 : e.2 = v := by simpa using hparts.1
  have he1 : e.1 ∉ order := by simpa using hparts.2
  have he1K : e.1 ∈ K := hVP e heE
  refine ⟨e.1, List.mem_filter.mpr ⟨he1K, by simpa using he1⟩, ?_⟩
  rw [← he2]
  exact heE

theorem topologicalOrder_keyError_iff (deps : List TaskDependency)
    (K : List Int) :
    topologicalOrder K (buildAdj deps).1 = .error .keyError
      ↔ ¬ ValidSucc deps K := by
  constructor
  · intro h
    cases hb : buildIndegree K (buildAdj deps).1 with
    | none =>
      intro hVS
      have hsome : (buildIndegree K (buildAdj deps).1).isSome = true := by
        rw [buildIndegree_isSome]
        intro v hv
        have hmem : v ∈ deps.map (fun d => d.successor_id) :=
          (buildAdj_flat_perm deps).mem_iff.mp hv
        rcases List.mem_map.mp hmem with ⟨dp, hdp, rfl⟩
        exact hVS (dp.predecessor_id, dp.successor_id)
          (List.mem_map.mpr ⟨dp, hdp, rfl⟩)
      rw [hb] at hsome
      simp at hsome
    | some d =>
      exfalso
      rw [topologicalOrder_eq_some K _ d hb] at h
      by_cases hl : (kahnLoop (buildAdj deps).1 (K.length + 1) d
          (K.filter (fun t => alookup d t == some 0)) []).length = K.length
      · rw [if_pos hl] at h
        simp at h
      · rw [if_neg hl] at h
        simp at h
  · intro hVS
    have hnone : buildIndegree K (buildAdj deps).1 = none := by
      cases hb : buildIndegree K (buildAdj deps).1 with
      | none => rfl
      | some d => exact absurd (buildIndegree_succ_valid deps K d hb) hVS
    exact topologicalOrder_eq_none K _ hnone

theorem topologicalOrder_ok_iff (deps : List TaskDependency) (K : List Int)
    (hK : K.Nodup) :
    (∃ order, topologicalOrder K (buildAdj deps).1 = .ok order)
      ↔ (ValidSucc deps K ∧ ValidPred deps K ∧ ¬ HasCycle deps K) := by
  constructor
  · rintro ⟨order, h⟩
    have htf := topologicalOrder_ok_facts deps K hK order h
    have hVS : ValidSucc deps K := by
      cases hb : buildIndegree K (buildAdj deps).1 with
      | none =>
        rw [topologicalOrder_eq_none K _ hb] at h
        simp at h
      | some d => exact buildIndegree_succ_valid deps K d hb
    refine ⟨hVS, ?_, no_cycle_of_topoFacts deps K order htf hK⟩
    intro e he
    rcases htf.sorted e he with ⟨p, q, hsplit, hmem⟩
    have hord : e.1 ∈ order := by
      rw [hsplit]
      simp [hmem]
    exact htf.perm.mem_iff.mp hord
  · rintro ⟨hVS, hVP, hAC⟩
    have hsome : (buildIndegree K (buildAdj deps).1).isSome = true := by
      rw [buildIndegree_isSome]
      intro v hv
      have hmem : v ∈ deps.map (fun d => d.successor_id) :=
        (buildAdj_flat_perm deps).mem_iff.mp hv
      rcases List.mem_map.mp hmem with ⟨dp, hdp, rfl⟩
      exact hVS (dp.predecessor_id, dp.successor_id)
        (List.mem_map.mpr ⟨dp, hdp, rfl⟩)
    obtain ⟨d, hb⟩ := Option.isSome_iff_exists.mp hsome
    rcases topologicalOrder_run deps K hK d hb with ⟨indeg', order', hfin, heq⟩
    by_cases hl : order'.length = K.length
    · exact ⟨order', by rw [heq, if_pos hl]⟩
    · exact absurd (incomplete_to_stuck deps K hK indeg' order' hfin hVP hl) hAC

theorem topologicalOrder_trichotomy (K : List Int)
    (edges : List (Int × List Int)) :
    topologicalOrder K edges = .error .keyError
    ∨ topologicalOrder K edges = .error .cycleError
    ∨ ∃ order, topologicalOrder K edges = .ok order := by
  cases hb : buildIndegree K edges with
  | none => exact Or.inl (topologicalOrder_eq_none K edges hb)
  | some d =>
    rw [topologicalOrder_eq_some K edges d hb]
    by_cases hl : (kahnLoop edges (K.length + 1) d
        (K.filter (fun t => alookup d t == some 0)) []).length = K.length
    · exact Or.inr (Or.inr ⟨_, if_pos hl⟩)
    · exact Or.inr (Or.inl (if_neg hl))

/-! ### Positional consequences of a topological order -/

theorem mem_predsIn (deps : List TaskDependency) (p v : Int) :
    p ∈ predsIn deps v ↔ (p, v) ∈ edgePairs deps := by
  constructor
  · intro h
    rcases List.mem_map.mp h with ⟨e, he, rfl⟩
    obtain ⟨heE, hpred⟩ := List.mem_filter.mp he
    have h2 : e.2 = v := by simpa using hpred
    rw [← h2]
    exact heE
  · intro h
    exact List.mem_map.mpr ⟨(p, v), List.mem_filter.mpr ⟨h, by simp⟩, rfl⟩

theorem mem_succsIn (deps : List TaskDependency) (u s : Int) :
    s ∈ succsIn deps u ↔ (u, s) ∈ edgePairs deps := by
  constructor
  · intro h
    rcases List.mem_map.mp h with ⟨e, he, rfl⟩
    obtain ⟨heE, hpred⟩ := List.mem_filter.mp he
    have h1 : e.1 = u := by simpa using hpred
    rw [← h1]
    exact heE
  · intro h
    exact List.mem_map.mpr ⟨(u, s), List.mem_filter.mpr ⟨h, by simp⟩, rfl⟩

theorem indexOf_suffix (s : Int) : ∀ (A B : List Int) (x : Int),
    (A ++ x :: B).Nodup → s ∈ B →
    (A ++ x :: B).indexOf s = A.length + 1 + B.indexOf s := by
  intro A
  induction A with
  | nil =>
    intro B x hnd hs
    have hne : s ≠ x := by
      intro hh
      have := (List.nodup_cons.mp (by simpa using hnd)).1
      exact this (hh ▸ hs)
    rw [List.nil_append, indexOf_cons_ne s x B hne]
    simp only [List.length_nil]
    omega
  | cons c A' ih =>
    intro B x hnd hs
    rw [List.cons_append] at hnd
    have hcons := List.nodup_cons.mp hnd
    have hnd' : (A' ++ x :: B).Nodup := hcons.2
    have hne : s ≠ c := by
      intro hh
      exact hcons.1 (hh ▸ (by simp [hs] : s ∈ A' ++ x :: B))
    rw [List.cons_append, indexOf_cons_ne s c _ hne, ih B x hnd' hs]
    simp only [List.length_cons]
    omega

theorem mem_prefix_of_indexOf_lt (s : Int) (A B : List Int) (x : Int)
    (hnd : (A ++ x :: B).Nodup) (hmem : s ∈ A ++ x :: B)
    (hlt : (A ++ x :: B).indexOf s < A.length) : s ∈ A := by
  rcases List.mem_append.mp hmem with h | h
  · exact h
  rcases List.mem_cons.mp h with rfl | h
  · rw [indexOf_split s A B hnd] at hlt
    omega
  · rw [indexOf_suffix s A B x hnd h] at hlt
    omega

theorem mem_suffix_of_indexOf_gt (s : Int) (A B : List Int) (x : Int)
    (hnd : (A ++ x :: B).Nodup) (hmem : s ∈ A ++ x :: B)
    (hgt : A.length < (A ++ x :: B).indexOf s) : s ∈ B := by
  rcases List.mem_append.mp hmem with h | h
  · have := indexOf_mem_prefix s A (x :: B) h
    omega
  rcases List.mem_cons.mp h with rfl | h
  · rw [indexOf_split s A B hnd] at hgt
    omega
  · exact h

/-- In a successful order, every predecessor of `tid` lies strictly before
`tid`. -/
theorem topoFacts_preds_before (deps : List TaskDependency) (K order : List Int)
    (htf : TopoFacts deps K order) (hK : K.Nodup) :
    ∀ (done : List Int) (tid : Int) (rest : List Int),
      order = done ++ tid :: rest → ∀ p ∈ predsIn deps tid, p ∈ done := by
  intro done tid rest hsplit p hp
  have hnd0 : order.Nodup := htf.perm.nodup_iff.mpr hK
  have hnd : (done ++ tid :: rest).Nodup := hsplit ▸ hnd0
  have hedge : (p, tid) ∈ edgePairs deps := (mem_predsIn deps p tid).mp hp
  have hlt := topoFacts_edge_lt deps K order htf hK (p, tid) hedge
  simp only at hlt
  have hpmem0 : p ∈ order := by
    rcases htf.sorted (p, tid) hedge with ⟨p', q', hsplit', hmem'⟩
    rw [hsplit']
    simp [hmem']
  have hpmem : p ∈ done ++ tid :: rest := hsplit ▸ hpmem0
  have hidx : (done ++ tid :: rest).indexOf tid = done.length :=
    indexOf_split tid done rest hnd
  apply mem_prefix_of_indexOf_lt p done rest tid hnd hpmem
  rw [hsplit] at hlt
  omega

/-- In a successful order, every successor of `tid` lies strictly after
`tid`; phrased on the reversed order used by the backward pass. -/
theorem topoFacts_succs_before_rev (deps : List TaskDependency)
    (K order : List Int) (htf : TopoFacts deps K order) (hK : K.Nodup) :
    ∀ (done : List Int) (tid : Int) (rest : List Int),
      order.reverse = done ++ tid :: rest →
      ∀ s ∈ succsIn deps tid, s ∈ done := by
  intro done tid rest hsplit s hs
  have hnd0 : order.Nodup := htf.perm.nodup_iff.mpr hK
  have hedge : (tid, s) ∈ edgePairs deps := (mem_succsIn deps tid s).mp hs
  have hlt := topoFacts_edge_lt deps K order htf hK (tid, s) hedge
  simp only at hlt
  have horder : order = rest.reverse ++ tid :: done.reverse := by
    have hrev := congrArg List.reverse hsplit
    simpa using hrev
  have hnd : (rest.reverse ++ tid :: done.reverse).Nodup := horder ▸ hnd0
  have hsmem0 : s ∈ order := by
    rcases htf.sorted (tid, s) hedge with ⟨p', q', hsplit', _⟩
    rw [hsplit']
    simp
  have hsmem : s ∈ rest.reverse ++ tid :: done.reverse := horder ▸ hsmem0
  have hidx : (rest.reverse ++ tid :: done.reverse).indexOf tid
      = rest.reverse.length :=
    indexOf_split tid rest.reverse done.reverse hnd
  have hfin : s ∈ done.reverse := by
    apply mem_suffix_of_indexOf_gt s rest.reverse done.reverse tid hnd hsmem
    rw [horder] at hlt
    omega
  simpa using hfin


/-! ### Forward pass specification -/

theorem dateLookup_aset (d : List (Int × Int)) (k v w : Int) :
    dateLookup (aset d k v) w = if w = k then v else dateLookup d w := by
  rw [dateLookup, alookup_aset]
  by_cases h : w = k <;> simp [h, dateLookup]

/-- `es[tid]` as computed on lines 68-72: the project start when there are
no predecessors, otherwise `max(ef[p] for p in predecessors[tid])`. -/
def esFormula (startDate : Int) (ef : List (Int × Int)) (pl : List Int) : Int :=
  match pl with
  | [] => startDate
  | q :: qs => maxFold (dateLookup ef q) (qs.map (dateLookup ef))

/-- `lf[tid]` as computed on lines 84-88: the project finish when there
are no successors, otherwise `min(ls[s] for s in successors[tid])`. -/
def lfFormula (finish : Int) (ls : List (Int × Int)) (sl : List Int) : Int :=
  match sl with
  | [] => finish
  | q :: qs => minFold (dateLookup ls q) (qs.map (dateLookup ls))

theorem esFormula_congr (startDate : Int) (pl : List Int)
    (ef₁ ef₂ : List (Int × Int))
    (h : ∀ p ∈ pl, dateLookup ef₁ p = dateLookup ef₂ p) :
    esFormula startDate ef₁ pl = esFormula startDate ef₂ pl := by
  cases pl with
  | nil => rfl
  | cons q qs =>
    rw [esFormula, esFormula, h q (List.mem_cons_self _ _)]
    congr 1
    apply List.map_congr_left
    intro p hp
    exact h p (List.mem_cons_of_mem _ hp)

theorem lfFormula_congr (finish : Int) (sl : List Int)
    (ls₁ ls₂ : List (Int × Int))
    (h : ∀ p ∈ sl, dateLookup ls₁ p = dateLookup ls₂ p) :
    lfFormula finish ls₁ sl = lfFormula finish ls₂ sl := by
  cases sl with
  | nil => rfl
  | cons q qs =>
    rw [lfFormula, lfFormula, h q (List.mem_cons_self _ _)]
    congr 1
    apply List.map_congr_left
    intro p hp
    exact h p (List.mem_cons_of_mem _ hp)

/-- The forward-pass recurrence satisfied by the final `es`/`ef` maps:
lines 67-74 of `schedule.py` read off pointwise. -/
def FwdEq (startDate : Int) (taskMap : List (Int × Task))
    (deps : List TaskDependency) (es ef : List (Int × Int)) (t : Int) : Prop :=
  dateLookup es t = esFormula startDate ef (predsIn deps t)
  ∧ dateLookup ef t = dateLookup es t + max 1 (durOf taskMap t)

theorem forwardPass_aux (startDate : Int) (taskMap : List (Int × Task))
    (deps : List TaskDependency) (order : List Int) (hnd : order.Nodup)
    (hpred : ∀ (done : List Int) (tid : Int) (rest : List Int),
      order = done ++ tid :: rest → ∀ p ∈ predsIn deps tid, p ∈ done) :
    ∀ (rest done : List Int) (es ef : List (Int × Int)),
    order = done ++ rest →
    es.map (fun e => e.1) = done →
    ef.map (fun e => e.1) = done →
    (∀ t ∈ done, FwdEq startDate taskMap deps es ef t) →
    ((rest.foldl (forwardStep startDate taskMap (buildAdj deps).2)
        (es, ef)).1.map (fun e => e.1) = order
     ∧ (rest.foldl (forwardStep startDate taskMap (buildAdj deps).2)
        (es, ef)).2.map (fun e => e.1) = order
     ∧ ∀ t ∈ order, FwdEq startDate taskMap deps
         (rest.foldl (forwardStep startDate taskMap (buildAdj deps).2) (es, ef)).1
         (rest.foldl (forwardStep startDate taskMap (buildAdj deps).2) (es, ef)).2
         t) := by
  intro rest
  induction rest with
  | nil =>
    intro done es ef hsplit hkes hkef heq
    rw [List.append_nil] at hsplit
    subst hsplit
    exact ⟨hkes, hkef, heq⟩
  | cons tid rest' ih =>
    intro done es ef hsplit hkes hkef heq
    have hnd2 : (done ++ tid :: rest').Nodup := hsplit ▸ hnd
    have htidd : tid ∉ done := by
      intro hmem
      have hdisj := (List.nodup_append.mp hnd2).2.2
      exact hdisj hmem (List.mem_cons_self _ _)
    have hplrw : edgesGet (buildAdj deps).2 tid = predsIn deps tid :=
      buildAdj_pred deps tid
    have hstep : forwardStep startDate taskMap (buildAdj deps).2 (es, ef) tid
        = (aset es tid (esFormula startDate ef (predsIn deps tid)),
           aset ef tid (esFormula startDate ef (predsIn deps tid)
              + max 1 (durOf taskMap tid))) := by
      simp only [forwardStep, hplrw, esFormula]
    have hfreshes : alookup es tid = none := by
      rw [alookup_eq_none, hkes]
      exact htidd
    have hfreshef : alookup ef tid = none := by
      rw [alookup_eq_none, hkef]
      exact htidd
    have hkes' : (aset es tid (esFormula startDate ef (predsIn deps tid))).map
        (fun e => e.1) = done ++ [tid] := by
      rw [aset_fresh _ _ _ hfreshes, List.map_append, hkes]
      rfl
    have hkef' : (aset ef tid (esFormula startDate ef (predsIn deps tid)
        + max 1 (durOf taskMap tid))).map (fun e => e.1) = done ++ [tid] := by
      rw [aset_fresh _ _ _ hfreshef, List.map_append, hkef]
      rfl
    have hpreds_tid : ∀ p ∈ predsIn deps tid, p ∈ done :=
      hpred done tid rest' hsplit
    have heq' : ∀ t ∈ done ++ [tid], FwdEq startDate taskMap deps
        (aset es tid (esFormula startDate ef (predsIn deps tid)))
        (aset ef tid (esFormula startDate ef (predsIn deps tid)
           + max 1 (durOf taskMap tid))) t := by
      intro t ht
      rcases List.mem_append.mp ht with htd | htd
      · obtain ⟨heq1, heq2⟩ := heq t htd
        have htne : ¬(t = tid) := fun hh => htidd (hh ▸ htd)
        obtain ⟨A, B, hAB⟩ := List.append_of_mem htd
        have horder2 : order = A ++ t :: (B ++ tid :: rest') := by
          rw [hsplit, hAB]
          simp
        have hpt : ∀ p ∈ predsIn deps t, p ∈ A :=
          hpred A t (B ++ tid :: rest') horder2
        have hptne : ∀ p ∈ predsIn deps t, ¬(p = tid) := by
          intro p hp hh
          apply htidd
          rw [← hh, hAB]
          exact List.mem_append.mpr (Or.inl (hpt p hp))
        constructor
        · rw [dateLookup_aset, if_neg htne, heq1]
          apply esFormula_congr
          intro p hp
          rw [dateLookup_aset, if_neg (hptne p hp)]
        · rw [dateLookup_aset, if_neg htne, dateLookup_aset, if_neg htne]
          exact heq2
      · rw [List.mem_singleton.mp htd]
        constructor
        · rw [dateLookup_aset, if_pos rfl]
          apply esFormula_congr
          intro p hp
          rw [dateLookup_aset,
            if_neg (fun hh : p = tid => htidd (hh ▸ hpreds_tid p hp))]
        · rw [dateLookup_aset, if_pos rfl, dateLookup_aset, if_pos rfl]
    have hsplit' : order = (done ++ [tid]) ++ rest' := by
      rw [hsplit]
      simp
    have hrec := ih (done ++ [tid])
      (aset es tid (esFormula startDate ef (predsIn deps tid)))
      (aset ef tid (esFormula startDate ef (predsIn deps tid)
         + max 1 (durOf taskMap tid)))
      hsplit' hkes' hkef' heq'
    simpa [List.foldl_cons, hstep] using hrec

/-! ### Backward pass specification -/

/-- The backward-pass recurrence satisfied by the final `ls`/`lf` maps:
lines 78-90 of `schedule.py` read off pointwise. -/
def BwdEq (finish : Int) (taskMap : List (Int × Task))
    (deps : List TaskDependency) (ls lf : List (Int × Int)) (t : Int) : Prop :=
  dateLookup lf t = lfFormula finish ls (succsIn deps t)
  ∧ dateLookup ls t = dateLookup lf t - max 1 (durOf taskMap t)

theorem backwardPass_aux (finish : Int) (taskMap : List (Int × Task))
    (deps : List TaskDependency) (ro : List Int) (hnd : ro.Nodup)
    (hsucc : ∀ (done : List Int) (tid : Int) (rest : List Int),
      ro = done ++ tid :: rest → ∀ s ∈ succsIn deps tid, s ∈ done) :
    ∀ (rest done : List Int) (ls lf : List (Int × Int)),
    ro = done ++ rest →
    ls.map (fun e => e.1) = done →
    lf.map (fun e => e.1) = done →
    (∀ t ∈ done, BwdEq finish taskMap deps ls lf t) →
    ((rest.foldl (backwardStep finish taskMap (buildAdj deps).1)
        (ls, lf)).1.map (fun e => e.1) = ro
     ∧ (rest.foldl (backwardStep finish taskMap (buildAdj deps).1)
        (ls, lf)).2.map (fun e => e.1) = ro
     ∧ ∀ t ∈ ro, BwdEq finish taskMap deps
         (rest.foldl (backwardStep finish taskMap (buildAdj deps).1) (ls, lf)).1
         (rest.foldl (backwardStep finish taskMap (buildAdj deps).1) (ls, lf)).2
         t) := by
  intro rest
  induction rest with
  | nil =>
    intro done ls lf hsplit hkls hklf heq
    rw [List.append_nil] at hsplit
    subst hsplit
    exact ⟨hkls, hklf, heq⟩
  | cons tid rest' ih =>
    intro done ls lf hsplit hkls hklf heq
    have hnd2 : (done ++ tid :: rest').Nodup := hsplit ▸ hnd
    have htidd : tid ∉ done := by
      intro hmem
      have hdisj := (List.nodup_append.mp hnd2).2.2
      exact hdisj hmem (List.mem_cons_self _ _)
    have hslrw : edgesGet (buildAdj deps).1 tid = succsIn deps tid :=
      buildAdj_succ deps tid
    have hstep : backwardStep finish taskMap (buildAdj deps).1 (ls, lf) tid
        = (aset ls tid (lfFormula finish ls (succsIn deps tid)
              - max 1 (durOf taskMap tid)),
           aset lf tid (lfFormula finish ls (succsIn deps tid))) := by
      simp only [backwardStep, hslrw, lfFormula]
    have hfreshls : alookup ls tid = none := by
      rw [alookup_eq_none, hkls]
      exact htidd
    have hfreshlf : alookup lf tid = none := by
      rw [alookup_eq_none, hklf]
      exact htidd
    have hkls' : (aset ls tid (lfFormula finish ls (succsIn deps tid)
        - max 1 (durOf taskMap tid))).map (fun e => e.1) = done ++ [tid] := by
      rw [aset_fresh _ _ _ hfreshls, List.map_append, hkls]
      rfl
    have hklf' : (aset lf tid (lfFormula finish ls (succsIn deps tid))).map
        (fun e => e.1) = done ++ [tid] := by
      rw [aset_fresh _ _ _ hfreshlf, List.map_append, hklf]
      rfl
    have hsuccs_tid : ∀ s ∈ succsIn deps tid, s ∈ done :=
      hsucc done tid rest' hsplit
    have heq' : ∀ t ∈ done ++ [tid], BwdEq finish taskMap deps
        (aset ls tid (lfFormula finish ls (succsIn deps tid)
           - max 1 (durOf taskMap tid)))
        (aset lf tid (lfFormula finish ls (succsIn deps tid))) t := by
      intro t ht
      rcases List.mem_append.mp ht with htd | htd
      · obtain ⟨heq1, heq2⟩ := heq t htd
        have htne : ¬(t = tid) := fun hh => htidd (hh ▸ htd)
        obtain ⟨A, B, hAB⟩ := List.append_of_mem htd
        have hro2 : ro = A ++ t :: (B ++ tid :: rest') := by
          rw [hsplit, hAB]
          simp
        have hst : ∀ s ∈ succsIn deps t, s ∈ A :=
          hsucc A t (B ++ tid :: rest') hro2
        have hstne : ∀ s ∈ succsIn deps t, ¬(s = tid) := by
          intro s hs hh
          apply htidd
          rw [← hh, hAB]
          exact List.mem_append.mpr (Or.inl (hst s hs))
        constructor
        · rw [dateLookup_aset, if_neg htne, heq1]
          apply lfFormula_congr
          intro s hs
          rw [dateLookup_aset, if_neg (hstne s hs)]
        · rw [dateLookup_aset, if_neg htne, dateLookup_aset, if_neg htne]
          exact heq2
      · rw [List.mem_singleton.mp htd]
        constructor
        · rw [dateLookup_aset, if_pos rfl]
          apply lfFormula_congr
          intro s hs
          rw [dateLookup_aset,
            if_neg (fun hh : s = tid => htidd (hh ▸ hsuccs_tid s hs))]
        · rw [dateLookup_aset, if_pos rfl, dateLookup_aset, if_pos rfl]
    have hsplit' : ro = (done ++ [tid]) ++ rest' := by
      rw [hsplit]
      simp
    have hrec := ih (done ++ [tid])
      (aset ls tid (lfFormula finish ls (succsIn deps tid)
         - max 1 (durOf taskMap tid)))
      (aset lf tid (lfFormula finish ls (succsIn deps tid)))
      hsplit' hkls' hklf' heq'
    simpa [List.foldl_cons, hstep] using hrec

/-! ### Named pieces of a `compute_cpm` run -/

/-- The distinct task ids, in first-appearance order: the keys of
`task_by_id`. -/
def taskIdsOf (tasks : List Task) : List Int :=
  (buildTaskMap tasks).map (fun e => e.1)

/-- The `(es, ef)` maps after the forward pass over `order`. -/
def fwOf (startDate : Int) (tasks : List Task) (deps : List TaskDependency)
    (order : List Int) : List (Int × Int) × List (Int × Int) :=
  order.foldl (forwardStep startDate (buildTaskMap tasks) (buildAdj deps).2)
    ([], [])

/-- `project_finish` computed on line 76. -/
def finishOf (startDate : Int) (tasks : List Task) (deps : List TaskDependency)
    (order : List Int) : Int :=
  projectFinish startDate (fwOf startDate tasks deps order).2

/-- The `(ls, lf)` maps after the backward pass over `reversed(order)`. -/
def bwOf (startDate : Int) (tasks : List Task) (deps : List TaskDependency)
    (order : List Int) : List (Int × Int) × List (Int × Int) :=
  order.reverse.foldl
    (backwardStep (finishOf startDate tasks deps order) (buildTaskMap tasks)
      (buildAdj deps).1)
    ([], [])

/-- The schedule map built on lines 92-107. -/
def smOf (startDate : Int) (tasks : List Task) (deps : List TaskDependency)
    (order : List Int) : List (Int × TaskSchedule) :=
  order.map (fun tid => (tid, mkTaskSchedule
    (fwOf startDate tasks deps order).1 (fwOf startDate tasks deps order).2
    (bwOf startDate tasks deps order).1 (bwOf startDate tasks deps order).2
    tid))

/-- The value `compute_cpm` returns once the topological sort delivered
`order`. -/
def mkOutput (projectId startDate : Int) (tasks : List Task)
    (deps : List TaskDependency) (persist : Bool) (order : List Int) :
    ComputeOutput :=
  { projectSchedule :=
      { project_id := projectId
        start_date := startDate
        finish_date := finishOf startDate tasks deps order
        critical_path_task_ids := order.filter (fun tid => (mkTaskSchedule
          (fwOf startDate tasks deps order).1 (fwOf startDate tasks deps order).2
          (bwOf startDate tasks deps order).1 (bwOf startDate tasks deps order).2
          tid).is_critical) }
    scheduleByTask := smOf startDate tasks deps order
    sessionTasks :=
      if persist then persistTasks (smOf startDate tasks deps order) tasks
      else tasks }

theorem computeCPM_eq (projectId startDate : Int) (tasks : List Task)
    (deps : List TaskDependency) (persist : Bool) :
    computeCPM projectId startDate tasks deps persist
      = match topologicalOrder (taskIdsOf tasks) (buildAdj deps).1 with
        | .error e => .error e
        | .ok order => .ok (mkOutput projectId startDate tasks deps persist order) := by
  unfold computeCPM mkOutput smOf bwOf finishOf fwOf taskIdsOf
  dsimp only

/-! ### Task-map keys -/

theorem aset_keys_nodup {β : Type} (d : List (Int × β)) (k : Int) (v : β)
    (h : (d.map (fun e => e.1)).Nodup) :
    ((aset d k v).map (fun e => e.1)).Nodup := by
  by_cases hk : k ∈ d.map (fun e => e.1)
  · rw [aset_keys d k v hk]
    exact h
  · rw [aset_fresh d k v ((alookup_eq_none d k).mpr hk), List.map_append]
    apply List.Nodup.append h (by simp)
    intro a ha hb
    have hak : a = k := by simpa using hb
    rw [hak] at ha
    exact hk ha

theorem aset_keys_mem {β : Type} (d : List (Int × β)) (k : Int) (v : β)
    (w : Int) :
    (w ∈ (aset d k v).map (fun e => e.1)) ↔ w = k ∨ w ∈ d.map (fun e => e.1) := by
  rw [← alookup_isSome, alookup_isSome_aset, ← alookup_isSome]
  by_cases h : w = k <;> simp [h]

theorem taskIdsOf_nodup (tasks : List Task) : (taskIdsOf tasks).Nodup := by
  rw [taskIdsOf, buildTaskMap]
  suffices h : ∀ (acc : List (Int × Task)), (acc.map (fun e => e.1)).Nodup →
      ((tasks.foldl (fun d t => aset d t.id t) acc).map (fun e => e.1)).Nodup from
    h [] (by simp)
  induction tasks with
  | nil => intro acc hacc; exact hacc
  | cons t rest ih =>
    intro acc hacc
    exact ih (aset acc t.id t) (aset_keys_nodup acc t.id t hacc)

theorem taskIdsOf_mem (tasks : List Task) (tid : Int) :
    tid ∈ taskIdsOf tasks ↔ tid ∈ tasks.map (fun t => t.id) := by
  rw [taskIdsOf, buildTaskMap]
  suffices h : ∀ (acc : List (Int × Task)),
      (tid ∈ ((tasks.foldl (fun d t => aset d t.id t) acc).map (fun e => e.1))
        ↔ tid ∈ acc.map (fun e => e.1) ∨ tid ∈ tasks.map (fun t => t.id)) by
    have := h []
    simpa using this
  induction tasks with
  | nil => intro acc; simp
  | cons t rest ih =>
    intro acc
    rw [List.foldl_cons, ih (aset acc t.id t), aset_keys_mem]
    simp only [List.map_cons, List.mem_cons]
    constructor
    · rintro ((h | h) | h)
      · exact Or.inr (Or.inl h)
      · exact Or.inl h
      · exact Or.inr (Or.inr h)
    · rintro (h | (h | h))
      · exact Or.inl (Or.inr h)
      · exact Or.inl (Or.inl h)
      · exact Or.inr h

/-! ### Facts about `maxFold` / `minFold` -/

theorem maxFold_cons (x y : Int) (l : List Int) :
    maxFold x (y :: l) = maxFold (max x y) l := rfl

theorem minFold_cons (x y : Int) (l : List Int) :
    minFold x (y :: l) = minFold (min x y) l := rfl

theorem seed_le_maxFold : ∀ (l : List Int) (x : Int), x ≤ maxFold x l := by
  intro l
  induction l with
  | nil => intro x; exact le_refl _
  | cons y rest ih =>
    intro x
    rw [maxFold_cons]
    exact le_trans (le_max_left x y) (ih (max x y))

theorem minFold_le_seed : ∀ (l : List Int) (x : Int), minFold x l ≤ x := by
  intro l
  induction l with
  | nil => intro x; exact le_refl _
  | cons y rest ih =>
    intro x
    rw [minFold_cons]
    exact le_trans (ih (min x y)) (min_le_left x y)

theorem le_maxFold (c : Int) : ∀ (l : List Int) (x : Int),
    (c = x ∨ c ∈ l) → c ≤ maxFold x l := by
  intro l
  induction l with
  | nil =>
    intro x h
    rcases h with rfl | h
    · exact le_refl _
    · simp at h
  | cons y rest ih =>
    intro x h
    rw [maxFold_cons]
    rcases h with rfl | h
    · exact le_trans (le_max_left c y) (seed_le_maxFold rest (max c y))
    · rcases List.mem_cons.mp h with rfl | h
      · exact le_trans (le_max_right x c) (seed_le_maxFold rest (max x c))
      · exact ih (max x y) (Or.inr h)

theorem minFold_le (c : Int) : ∀ (l : List Int) (x : Int),
    (c = x ∨ c ∈ l) → minFold x l ≤ c := by
  intro l
  induction l with
  | nil =>
    intro x h
    rcases h with rfl | h
    · exact le_refl _
    · simp at h
  | cons y rest ih =>
    intro x h
    rw [minFold_cons]
    rcases h with rfl | h
    · exact le_trans (minFold_le_seed rest (min c y)) (min_le_left c y)
    · rcases List.mem_cons.mp h with rfl | h
      · exact le_trans (minFold_le_seed rest (min x c)) (min_le_right x c)
      · exact ih (min x y) (Or.inr h)

theorem maxFold_le (c : Int) : ∀ (l : List Int) (x : Int),
    x ≤ c → (∀ y ∈ l, y ≤ c) → maxFold x l ≤ c := by
  intro l
  induction l with
  | nil => intro x hx _; exact hx
  | cons y rest ih =>
    intro x hx hl
    rw [maxFold_cons]
    exact ih (max x y) (max_le hx (hl y (List.mem_cons_self _ _)))
      (fun z hz => hl z (List.mem_cons_of_mem _ hz))

theorem le_minFold (c : Int) : ∀ (l : List Int) (x : Int),
    c ≤ x → (∀ y ∈ l, c ≤ y) → c ≤ minFold x l := by
  intro l
  induction l with
  | nil => intro x hx _; exact hx
  | cons y rest ih =>
    intro x hx hl
    rw [minFold_cons]
    exact ih (min x y) (le_min hx (hl y (List.mem_cons_self _ _)))
      (fun z hz => hl z (List.mem_cons_of_mem _ hz))

theorem maxFold_cases : ∀ (l : List Int) (x : Int),
    maxFold x l = x ∨ maxFold x l ∈ l := by
  intro l
  induction l with
  | nil => intro x; exact Or.inl rfl
  | cons y rest ih =>
    intro x
    rw [maxFold_cons]
    rcases ih (max x y) with h | h
    · rcases max_choice x y with hm | hm
      · exact Or.inl (h.trans hm)
      · exact Or.inr (by rw [h, hm]; exact List.mem_cons_self _ _)
    · exact Or.inr (List.mem_cons_of_mem _ h)

theorem minFold_cases : ∀ (l : List Int) (x : Int),
    minFold x l = x ∨ minFold x l ∈ l := by
  intro l
  induction l with
  | nil => intro x; exact Or.inl rfl
  | cons y rest ih =>
    intro x
    rw [minFold_cons]
    rcases ih (min x y) with h | h
    · rcases min_choice x y with hm | hm
      · exact Or.inl (h.trans hm)
      · exact Or.inr (by rw [h, hm]; exact List.mem_cons_self _ _)
    · exact Or.inr (List.mem_cons_of_mem _ h)

/-! ### Bundle of facts about a successful run -/

structure OkRun (startDate : Int) (tasks : List Task)
    (deps : List TaskDependency) (order : List Int) : Prop where
  topo : TopoFacts deps (taskIdsOf tasks) order
  fwKeys1 : (fwOf startDate tasks deps order).1.map (fun e => e.1) = order
  fwKeys2 : (fwOf startDate tasks deps order).2.map (fun e => e.1) = order
  fwEq : ∀ t ∈ order, FwdEq startDate (buildTaskMap tasks) deps
    (fwOf startDate tasks deps order).1 (fwOf startDate tasks deps order).2 t
  bwKeys1 : (bwOf startDate tasks deps order).1.map (fun e => e.1) = order.reverse
  bwKeys2 : (bwOf startDate tasks deps order).2.map (fun e => e.1) = order.reverse
  bwEq : ∀ t ∈ order, BwdEq (finishOf startDate tasks deps order)
    (buildTaskMap tasks) deps
    (bwOf startDate tasks deps order).1 (bwOf startDate tasks deps order).2 t

theorem okRun_of_topo (startDate : Int) (tasks : List Task)
    (deps : List TaskDependency) (order : List Int)
    (h : topologicalOrder (taskIdsOf tasks) (buildAdj deps).1 = .ok order) :
    OkRun startDate tasks deps order := by
  have hK := taskIdsOf_nodup tasks
  have htf := topologicalOrder_ok_facts deps _ hK order h
  have hnd : order.Nodup := htf.perm.nodup_iff.mpr hK
  have hfwd := forwardPass_aux startDate (buildTaskMap tasks) deps order hnd
    (topoFacts_preds_before deps _ order htf hK) order [] [] []
    rfl rfl rfl (by intro t ht; exact absurd ht (List.not_mem_nil t))
  have hndr : order.reverse.Nodup := by simpa using hnd
  have hbwd := backwardPass_aux (finishOf startDate tasks deps order)
    (buildTaskMap tasks) deps order.reverse hndr
    (topoFacts_succs_before_rev deps _ order htf hK) order.reverse [] [] []
    rfl rfl rfl (by intro t ht; exact absurd ht (List.not_mem_nil t))
  refine ⟨htf, hfwd.1, hfwd.2.1, hfwd.2.2, hbwd.1, hbwd.2.1, ?_⟩
  intro t ht
  exact hbwd.2.2 t (by simpa using ht)

theorem okRun_order_nodup (startDate : Int) (tasks : List Task)
    (deps : List TaskDependency) (order : List Int)
    (hrun : OkRun startDate tasks deps order) : order.Nodup :=
  hrun.topo.perm.nodup_iff.mpr (taskIdsOf_nodup tasks)

theorem efValues (startDate : Int) (tasks : List Task)
    (deps : List TaskDependency) (order : List Int)
    (hrun : OkRun startDate tasks deps order) :
    (fwOf startDate tasks deps order).2.map (fun e => e.2)
      = order.map (fun t => dateLookup (fwOf startDate tasks deps order).2 t) := by
  have hassoc := assoc_eq_map_keys (fwOf startDate tasks deps order).2 order
    hrun.fwKeys2 (okRun_order_nodup startDate tasks deps order hrun)
  conv_lhs => rw [hassoc]
  simp [List.map_map, Function.comp]

theorem finish_ge (startDate : Int) (tasks : List Task)
    (deps : List TaskDependency) (order : List Int)
    (hrun : OkRun startDate tasks deps order) :
    ∀ t ∈ order, dateLookup (fwOf startDate tasks deps order).2 t
      ≤ finishOf startDate tasks deps order := by
  intro t ht
  rw [finishOf, projectFinish, efValues startDate tasks deps order hrun]
  cases horder : order with
  | nil => rw [horder] at ht; exact absurd ht (List.not_mem_nil t)
  | cons t₀ rest =>
    rw [horder] at ht
    simp only [List.map_cons]
    apply le_maxFold
    rcases List.mem_cons.mp ht with rfl | ht
    · exact Or.inl rfl
    · exact Or.inr (List.mem_map.mpr ⟨t, ht, rfl⟩)

theorem finish_attained (startDate : Int) (tasks : List Task)
    (deps : List TaskDependency) (order : List Int)
    (hrun : OkRun startDate tasks deps order) (hne : order ≠ []) :
    ∃ t ∈ order, dateLookup (fwOf startDate tasks deps order).2 t
      = finishOf startDate tasks deps order := by
  obtain ⟨t₀, rest, horder⟩ := List.exists_cons_of_ne_nil hne
  have hval : finishOf startDate tasks deps order
      = maxFold (dateLookup (fwOf startDate tasks deps order).2 t₀)
          (rest.map (fun t => dateLookup (fwOf startDate tasks deps order).2 t)) := by
    rw [finishOf, projectFinish, efValues startDate tasks deps order hrun, horder]
    rfl
  rcases maxFold_cases
      (rest.map (fun t => dateLookup (fwOf startDate tasks deps order).2 t))
      (dateLookup (fwOf startDate tasks deps order).2 t₀) with hc | hc
  · exact ⟨t₀, by rw [horder]; exact List.mem_cons_self _ _, by rw [hval, hc]⟩
  · rcases List.mem_map.mp hc with ⟨t, htmem, hteq⟩
    exact ⟨t, by rw [horder]; exact List.mem_cons_of_mem _ htmem,
      by rw [hval, hteq]⟩

theorem finish_empty (startDate : Int) (tasks : List Task)
    (deps : List TaskDependency)
    (hrun : OkRun startDate tasks deps []) :
    finishOf startDate tasks deps [] = startDate := by
  have hk := hrun.fwKeys2
  have hnil : (fwOf startDate tasks deps []).2 = [] := by
    cases hv : (fwOf startDate tasks deps []).2 with
    | nil => rfl
    | cons e r =>
      rw [hv] at hk
      simp at hk
  rw [finishOf, projectFinish, hnil]
  rfl

theorem le_esFormula (startDate : Int) (ef : List (Int × Int))
    (pl : List Int) (t : Int) (h : t ∈ pl) :
    dateLookup ef t ≤ esFormula startDate ef pl := by
  cases pl with
  | nil => exact absurd h (List.not_mem_nil t)
  | cons q qs =>
    rw [esFormula]
    apply le_maxFold
    rcases List.mem_cons.mp h with rfl | h
    · exact Or.inl rfl
    · exact Or.inr (List.mem_map.mpr ⟨t, h, rfl⟩)

/-- The heart of CPM correctness: along a successful run, every task's
early finish is at most its late finish, which is at most the project
finish. -/
theorem ef_le_lf (startDate : Int) (tasks : List Task)
    (deps : List TaskDependency) (order : List Int)
    (hrun : OkRun startDate tasks deps order) :
    ∀ t ∈ order,
      dateLookup (fwOf startDate tasks deps order).2 t
        ≤ dateLookup (bwOf startDate tasks deps order).2 t
      ∧ dateLookup (bwOf startDate tasks deps order).2 t
        ≤ finishOf startDate tasks deps order := by
  have hnd := okRun_order_nodup startDate tasks deps order hrun
  have main : ∀ n : Nat, ∀ (p : List Int) (t : Int) (q : List Int),
      order = p ++ t :: q → q.length = n →
      dateLookup (fwOf startDate tasks deps order).2 t
        ≤ dateLookup (bwOf startDate tasks deps order).2 t
      ∧ dateLookup (bwOf startDate tasks deps order).2 t
        ≤ finishOf startDate tasks deps order := by
    intro n
    induction n using Nat.strong_induction_on with
    | _ n ih =>
      intro p t q hsplit hqlen
      have htmem : t ∈ order := by rw [hsplit]; simp
      obtain ⟨hlf_eq, _⟩ := hrun.bwEq t htmem
      cases hsl : succsIn deps t with
      | nil =>
        rw [hlf_eq, hsl, lfFormula]
        exact ⟨finish_ge startDate tasks deps order hrun t htmem, le_refl _⟩
      | cons s ss =>
        have hsucc_fact : ∀ y ∈ s :: ss,
            dateLookup (fwOf startDate tasks deps order).2 t
              ≤ dateLookup (bwOf startDate tasks deps order).1 y
            ∧ dateLookup (bwOf startDate tasks deps order).1 y
              ≤ finishOf startDate tasks deps order - 1 := by
          intro y hy
          have hys : y ∈ succsIn deps t := by rw [hsl]; exact hy
          have hedge : (t, y) ∈ edgePairs deps := (mem_succsIn deps t y).mp hys
          have hymem : y ∈ order := by
            rcases hrun.topo.sorted (t, y) hedge with ⟨py, qy, hsy, _⟩
            rw [hsy]
            simp
          have hndsplit : (p ++ t :: q).Nodup := hsplit ▸ hnd
          have hidx_t : (p ++ t :: q).indexOf t = p.length :=
            indexOf_split t p q hndsplit
          have hlt := topoFacts_edge_lt deps (taskIdsOf tasks) order
            hrun.topo (taskIdsOf_nodup tasks) (t, y) hedge
          simp only at hlt
          have hyq : y ∈ q := by
            apply mem_suffix_of_indexOf_gt y p q t hndsplit (hsplit ▸ hymem)
            rw [hsplit] at hlt
            omega
          obtain ⟨C, D, hqCD⟩ := List.append_of_mem hyq
          have hsplit_y : order = (p ++ t :: C) ++ y :: D := by
            rw [hsplit, hqCD]
            simp
          have hDlen : D.length < n := by
            rw [hqCD] at hqlen
            simp [List.length_append] at hqlen
            omega
          obtain ⟨hefy, hlfy⟩ := ih D.length hDlen (p ++ t :: C) y D hsplit_y rfl
          obtain ⟨hes_y, hef_y⟩ := hrun.fwEq y hymem
          obtain ⟨_, hls_y⟩ := hrun.bwEq y hymem
          have hdur : (1 : Int) ≤ max 1 (durOf (buildTaskMap tasks) y) :=
            le_max_left _ _
          have hpred_mem : t ∈ predsIn deps y := (mem_predsIn deps t y).mpr hedge
          have hef_le_es : dateLookup (fwOf startDate tasks deps order).2 t
              ≤ dateLookup (fwOf startDate tasks deps order).1 y := by
            rw [hes_y]
            exact le_esFormula startDate (fwOf startDate tasks deps order).2
              (predsIn deps y) t hpred_mem
          constructor
          · rw [hls_y]
            omega
          · rw [hls_y]
            omega
        rw [hlf_eq, hsl, lfFormula]
        constructor
        · apply le_minFold
          · exact (hsucc_fact s (List.mem_cons_self _ _)).1
          · intro z hz
            rcases List.mem_map.mp hz with ⟨y, hy, rfl⟩
            exact (hsucc_fact y (List.mem_cons_of_mem _ hy)).1
        · have hle : minFold (dateLookup (bwOf startDate tasks deps order).1 s)
              (ss.map (dateLookup (bwOf startDate tasks deps order).1))
              ≤ dateLookup (bwOf startDate tasks deps order).1 s :=
            minFold_le _ _ _ (Or.inl rfl)
          have hbound := (hsucc_fact s (List.mem_cons_self _ _)).2
          omega
  intro t ht
  obtain ⟨p, q, hsplit⟩ := List.append_of_mem ht
  exact main q.length p t q hsplit rfl

/-! ### Reading the outputs -/

theorem alookup_map_self_gen {β : Type} (P : List Int) (f : Int → β) (k : Int) :
    alookup (P.map (fun t => (t, f t))) k
      = if k ∈ P then some (f k) else none := by
  induction P with
  | nil => simp [alookup]
  | cons a rest ih =>
    by_cases h : k = a
    · simp [alookup, h]
    · simp [alookup, h, ih]

theorem smOf_lookup (startDate : Int) (tasks : List Task)
    (deps : List TaskDependency) (order : List Int) (tid : Int) :
    alookup (smOf startDate tasks deps order) tid
      = if tid ∈ order then
          some (mkTaskSchedule
            (fwOf startDate tasks deps order).1 (fwOf startDate tasks deps order).2
            (bwOf startDate tasks deps order).1 (bwOf startDate tasks deps order).2
            tid)
        else none := by
  rw [smOf]
  exact alookup_map_self_gen order _ tid

theorem smOf_keys (startDate : Int) (tasks : List Task)
    (deps : List TaskDependency) (order : List Int) :
    (smOf startDate tasks deps order).map (fun e => e.1) = order := by
  rw [smOf, List.map_map]
  have hpt : ∀ tid ∈ order,
      ((fun e => e.1) ∘ (fun tid => (tid, mkTaskSchedule
        (fwOf startDate tasks deps order).1 (fwOf startDate tasks deps order).2
        (bwOf startDate tasks deps order).1 (bwOf startDate tasks deps order).2
        tid))) tid = id tid :=
    fun tid _ => rfl
  rw [List.map_congr_left hpt, List.map_id]

theorem mkTaskSchedule_fields (es ef ls lf : List (Int × Int)) (tid : Int) :
    (mkTaskSchedule es ef ls lf tid).task_id = tid
    ∧ (mkTaskSchedule es ef ls lf tid).early_start = dateLookup es tid
    ∧ (mkTaskSchedule es ef ls lf tid).early_finish = dateLookup ef tid
    ∧ (mkTaskSchedule es ef ls lf tid).late_start = dateLookup ls tid
    ∧ (mkTaskSchedule es ef ls lf tid).late_finish = dateLookup lf tid
    ∧ (mkTaskSchedule es ef ls lf tid).total_float_days
        = dateLookup ls tid - dateLookup es tid
    ∧ (mkTaskSchedule es ef ls lf tid).is_critical
        = decide (dateLookup ls tid - dateLookup es tid = 0) :=
  ⟨rfl, rfl, rfl, rfl, rfl, rfl, rfl⟩

/-- The early finish recorded for `p` in a schedule map (`0` when absent;
on a successful run every referenced id is present). -/
def efOf (sm : List (Int × TaskSchedule)) (p : Int) : Int :=
  match alookup sm p with
  | some s => s.early_finish
  | none => 0

/-- The late start recorded for `p` in a schedule map. -/
def lsOf (sm : List (Int × TaskSchedule)) (p : Int) : Int :=
  match alookup sm p with
  | some s => s.late_start
  | none => 0

/-- The float recorded for `p` in a schedule map. -/
def floatOf (sm : List (Int × TaskSchedule)) (p : Int) : Int :=
  match alookup sm p with
  | some s => s.total_float_days
  | none => 1

/-- The error component of a `compute_cpm` result. -/
def errOf (r : Except ScheduleError ComputeOutput) : Option ScheduleError :=
  match r with
  | .error e => some e
  | .ok _ => none

/-- A task row with the given id and duration and neutral remaining
fields, for concrete examples. -/
def sampleTask (i d : Int) : Task :=
  { id := i
    project_id := 1
    name := "t"
    duration_days := d
    planned_start_date := none
    planned_finish_date := none
    cost_planned := 0.0
    cost_actual := 0.0
    percent_complete := 0.0
    notes := none }

theorem computeCPM_ok_inv (projectId startDate : Int) (tasks : List Task)
    (deps : List TaskDependency) (persist : Bool) (out : ComputeOutput)
    (h : computeCPM projectId startDate tasks deps persist = .ok out) :
    ∃ order, topologicalOrder (taskIdsOf tasks) (buildAdj deps).1 = .ok order
      ∧ out = mkOutput projectId startDate tasks deps persist order := by
  rw [computeCPM_eq] at h
  cases htopo : topologicalOrder (taskIdsOf tasks) (buildAdj deps).1 with
  | error e =>
    rw [htopo] at h
    exact absurd h (by simp)
  | ok order =>
    rw [htopo] at h
    simp only [Except.ok.injEq] at h
    exact ⟨order, rfl, h.symm⟩

theorem aset_ne_nil {β : Type} (d : List (Int × β)) (k : Int) (v : β) :
    aset d k v ≠ [] := by
  cases d with
  | nil => simp [aset]
  | cons e rest =>
    obtain ⟨a, b⟩ := e
    by_cases h : k = a <;> simp [aset, h]

theorem buildTaskMap_ne_nil (t : Task) (rest : List Task) :
    buildTaskMap (t :: rest) ≠ [] := by
  rw [buildTaskMap, List.foldl_cons]
  suffices hgen : ∀ (l : List Task) (acc : List (Int × Task)), acc ≠ [] →
      l.foldl (fun d t => aset d t.id t) acc ≠ [] from
    hgen rest (aset [] t.id t) (aset_ne_nil [] t.id t)
  intro l
  induction l with
  | nil => intro acc hacc; exact hacc
  | cons u rest' ih =>
    intro acc hacc
    exact ih (aset acc u.id u) (aset_ne_nil acc u.id u)

theorem order_nil_iff (startDate : Int) (tasks : List Task)
    (deps : List TaskDependency) (order : List Int)
    (hrun : OkRun startDate tasks deps order) :
    order = [] ↔ tasks = [] := by
  constructor
  · intro hnil
    have hperm := hrun.topo.perm
    rw [hnil] at hperm
    have hK : taskIdsOf tasks = [] := hperm.symm.eq_nil
    cases tasks with
    | nil => rfl
    | cons t rest =>
      exfalso
      apply buildTaskMap_ne_nil t rest
      rw [taskIdsOf] at hK
      exact List.map_eq_nil_iff.mp hK
  · intro hnil
    subst hnil
    have hperm := hrun.topo.perm
    have : taskIdsOf [] = [] := rfl
    rw [this] at hperm
    exact hperm.eq_nil

/-- The float identity: `ls - es = lf - ef` for every scheduled task. -/
theorem float_identity (startDate : Int) (tasks : List Task)
    (deps : List TaskDependency) (order : List Int)
    (hrun : OkRun startDate tasks deps order) :
    ∀ t ∈ order,
      dateLookup (bwOf startDate tasks deps order).1 t
          - dateLookup (fwOf startDate tasks deps order).1 t
        = dateLookup (bwOf startDate tasks deps order).2 t
          - dateLookup (fwOf startDate tasks deps order).2 t := by
  intro t ht
  obtain ⟨_, hef⟩ := hrun.fwEq t ht
  obtain ⟨_, hls⟩ := hrun.bwEq t ht
  omega

theorem mkOutput_sm (projectId startDate : Int) (tasks : List Task)
    (deps : List TaskDependency) (persist : Bool) (order : List Int) :
    (mkOutput projectId startDate tasks deps persist order).scheduleByTask
      = smOf startDate tasks deps order := rfl

theorem mkOutput_finish (projectId startDate : Int) (tasks : List Task)
    (deps : List TaskDependency) (persist : Bool) (order : List Int) :
    (mkOutput projectId startDate tasks deps persist order).projectSchedule.finish_date
      = finishOf startDate tasks deps order := rfl

theorem mkOutput_start (projectId startDate : Int) (tasks : List Task)
    (deps : List TaskDependency) (persist : Bool) (order : List Int) :
    (mkOutput projectId startDate tasks deps persist order).projectSchedule.start_date
      = startDate := rfl

theorem mkOutput_pid (projectId startDate : Int) (tasks : List Task)
    (deps : List TaskDependency) (persist : Bool) (order : List Int) :
    (mkOutput projectId startDate tasks deps persist order).projectSchedule.project_id
      = projectId := rfl

theorem mkOutput_crit (projectId startDate : Int) (tasks : List Task)
    (deps : List TaskDependency) (persist : Bool) (order : List Int) :
    (mkOutput projectId startDate tasks deps persist
        order).projectSchedule.critical_path_task_ids
      = order.filter (fun tid => (mkTaskSchedule
          (fwOf startDate tasks deps order).1 (fwOf startDate tasks deps order).2
          (bwOf startDate tasks deps order).1 (bwOf startDate tasks deps order).2
          tid).is_critical) := rfl

theorem mkOutput_rows (projectId startDate : Int) (tasks : List Task)
    (deps : List TaskDependency) (persist : Bool) (order : List Int) :
    (mkOutput projectId startDate tasks deps persist order).sessionTasks
      = if persist then persistTasks (smOf startDate tasks deps order) tasks
        else tasks := rfl

/-! ### The claims -/

/-- **C1** Forward pass correctness: on every successful computation, a
task with no predecessors has `earlyStart` equal to the project start
date, a task with predecessors has `earlyStart` equal to the maximum
`earlyFinish` over its predecessors (each of which is scheduled), and
every task has `earlyFinish = earlyStart + max(1, durationDays)`. -/
theorem C1_forward_pass (projectId startDate : Int) (tasks : List Task)
    (deps : List TaskDependency) (persist : Bool) (out : ComputeOutput)
    (h : computeCPM projectId startDate tasks deps persist = .ok out) :
    ∀ tid s, alookup out.scheduleByTask tid = some s →
      (∀ p ∈ predsIn deps tid, (alookup out.scheduleByTask p).isSome = true)
      ∧ (predsIn deps tid = [] → s.early_start = startDate)
      ∧ (∀ q qs, predsIn deps tid = q :: qs →
          s.early_start = maxFold (efOf out.scheduleByTask q)
            (qs.map (efOf out.scheduleByTask)))
      ∧ s.early_finish = s.early_start
          + max 1 (durOf (buildTaskMap tasks) tid) := by
  obtain ⟨order, htopo, hout⟩ :=
    computeCPM_ok_inv projectId startDate tasks deps persist out h
  subst hout
  have hrun := okRun_of_topo startDate tasks deps order htopo
  intro tid s hs
  rw [mkOutput_sm, smOf_lookup] at hs
  by_cases htid : tid ∈ order
  · rw [if_pos htid] at hs
    injection hs with hs
    subst hs
    obtain ⟨hes_eq, hef_eq⟩ := hrun.fwEq tid htid
    have hpmem : ∀ p ∈ predsIn deps tid, p ∈ order := by
      intro p hp
      have hedge := (mem_predsIn deps p tid).mp hp
      rcases hrun.topo.sorted (p, tid) hedge with ⟨pl, ql, hsplit, hm⟩
      rw [hsplit]
      simp [hm]
    have hef_look : ∀ p ∈ predsIn deps tid,
        efOf (smOf startDate tasks deps order) p
          = dateLookup (fwOf startDate tasks deps order).2 p := by
      intro p hp
      rw [efOf, smOf_lookup, if_pos (hpmem p hp)]
      rfl
    refine ⟨?_, ?_, ?_, ?_⟩
    · intro p hp
      rw [mkOutput_sm, smOf_lookup, if_pos (hpmem p hp)]
      rfl
    · intro hnil
      show dateLookup (fwOf startDate tasks deps order).1 tid = startDate
      rw [hes_eq, hnil, esFormula]
    · intro q qs hcons
      show dateLookup (fwOf startDate tasks deps order).1 tid
        = maxFold (efOf (mkOutput projectId startDate tasks deps persist
            order).scheduleByTask q)
          (qs.map (efOf (mkOutput projectId startDate tasks deps persist
            order).scheduleByTask))
      rw [mkOutput_sm, hes_eq, hcons, esFormula]
      have hq : q ∈ predsIn deps tid := by
        rw [hcons]
        exact List.mem_cons_self _ _
      rw [hef_look q hq]
      congr 1
      apply List.map_congr_left
      intro p hp
      rw [hef_look p (by rw [hcons]; exact List.mem_cons_of_mem _ hp)]
    · exact hef_eq
  · rw [if_neg htid] at hs
    exact absurd hs (by simp)

theorem C1_witness :
    ∃ out, computeCPM 1 0 [sampleTask 1 3, sampleTask 2 2]
        [⟨1, 2⟩] true = .ok out
      ∧ ∀ tid s, alookup out.scheduleByTask tid = some s →
          (∀ p ∈ predsIn [⟨1, 2⟩] tid,
            (alookup out.scheduleByTask p).isSome = true)
          ∧ (predsIn [⟨1, 2⟩] tid = [] → s.early_start = 0)
          ∧ (∀ q qs, predsIn [⟨1, 2⟩] tid = q :: qs →
              s.early_start = maxFold (efOf out.scheduleByTask q)
                (qs.map (efOf out.scheduleByTask)))
          ∧ s.early_finish = s.early_start
              + max 1 (durOf (buildTaskMap [sampleTask 1 3, sampleTask 2 2]) tid) :=
  ⟨_, rfl, C1_forward_pass 1 0 [sampleTask 1 3, sampleTask 2 2] [⟨1, 2⟩]
    true _ rfl⟩

/-- **C2** Backward pass correctness: on every successful computation, the
project finish date is the maximum `earlyFinish` over all tasks (the
start date when there are zero tasks); a task with no successors has
`lateFinish` equal to the finish date, a task with successors has
`lateFinish` equal to the minimum `lateStart` over its successors (each
of which is scheduled), and every task has
`lateStart = lateFinish - max(1, durationDays)`. -/
theorem C2_backward_pass (projectId startDate : Int) (tasks : List Task)
    (deps : List TaskDependency) (persist : Bool) (out : ComputeOutput)
    (h : computeCPM projectId startDate tasks deps persist = .ok out) :
    (tasks = [] → out.projectSchedule.finish_date = startDate)
    ∧ (∀ tid s, alookup out.scheduleByTask tid = some s →
        s.early_finish ≤ out.projectSchedule.finish_date)
    ∧ (tasks ≠ [] → ∃ tid s, alookup out.scheduleByTask tid = some s
        ∧ s.early_finish = out.projectSchedule.finish_date)
    ∧ ∀ tid s, alookup out.scheduleByTask tid = some s →
        (∀ y ∈ succsIn deps tid, (alookup out.scheduleByTask y).isSome = true)
        ∧ (succsIn deps tid = [] →
            s.late_finish = out.projectSchedule.finish_date)
        ∧ (∀ q qs, succsIn deps tid = q :: qs →
            s.late_finish = minFold (lsOf out.scheduleByTask q)
              (qs.map (lsOf out.scheduleByTask)))
        ∧ s.late_start = s.late_finish
            - max 1 (durOf (buildTaskMap tasks) tid) := by
  obtain ⟨order, htopo, hout⟩ :=
    computeCPM_ok_inv projectId startDate tasks deps persist out h
  subst hout
  have hrun := okRun_of_topo startDate tasks deps order htopo
  refine ⟨?_, ?_, ?_, ?_⟩
  · intro hnil
    rw [mkOutput_finish]
    have horder : order = [] :=
      (order_nil_iff startDate tasks deps order hrun).mpr hnil
    subst horder
    exact finish_empty startDate tasks deps hrun
  · intro tid s hs
    rw [mkOutput_sm, smOf_lookup] at hs
    by_cases htid : tid ∈ order
    · rw [if_pos htid] at hs
      injection hs with hs
      subst hs
      rw [mkOutput_finish]
      exact finish_ge startDate tasks deps order hrun tid htid
    · rw [if_neg htid] at hs
      exact absurd hs (by simp)
  · intro hne
    have horder : order ≠ [] :=
      fun hh => hne ((order_nil_iff startDate tasks deps order hrun).mp hh)
    obtain ⟨t, ht, heq⟩ := finish_attained startDate tasks deps order hrun horder
    refine ⟨t, mkTaskSchedule
        (fwOf startDate tasks deps order).1 (fwOf startDate tasks deps order).2
        (bwOf startDate tasks deps order).1 (bwOf startDate tasks deps order).2
        t, ?_, ?_⟩
    · rw [mkOutput_sm, smOf_lookup, if_pos ht]
    · rw [mkOutput_finish]
      exact heq
  · intro tid s hs
    rw [mkOutput_sm, smOf_lookup] at hs
    by_cases htid : tid ∈ order
    · rw [if_pos htid] at hs
      injection hs with hs
      subst hs
      obtain ⟨hlf_eq, hls_eq⟩ := hrun.bwEq tid htid
      have hsmem : ∀ y ∈ succsIn deps tid, y ∈ order := by
        intro y hy
        have hedge := (mem_succsIn deps tid y).mp hy
        rcases hrun.topo.sorted (tid, y) hedge with ⟨pl, ql, hsplit, hm⟩
        rw [hsplit]
        simp [hm]
      have hls_look : ∀ y ∈ succsIn deps tid,
          lsOf (smOf startDate tasks deps order) y
            = dateLookup (bwOf startDate tasks deps order).1 y := by
        intro y hy
        rw [lsOf, smOf_lookup, if_pos (hsmem y hy)]
        rfl
      refine ⟨?_, ?_, ?_, ?_⟩
      · intro y hy
        rw [mkOutput_sm, smOf_lookup, if_pos (hsmem y hy)]
        rfl
      · intro hnil
        show dateLookup (bwOf startDate tasks deps order).2 tid
          = (mkOutput projectId startDate tasks deps persist
              order).projectSchedule.finish_date
        rw [mkOutput_finish, hlf_eq, hnil, lfFormula]
      · intro q qs hcons
        show dateLookup (bwOf startDate tasks deps order).2 tid
          = minFold (lsOf (mkOutput projectId startDate tasks deps persist
              order).scheduleByTask q)
            (qs.map (lsOf (mkOutput projectId startDate tasks deps persist
              order).scheduleByTask))
        rw [mkOutput_sm, hlf_eq, hcons, lfFormula]
        have hq : q ∈ succsIn deps tid := by
          rw [hcons]
          exact List.mem_cons_self _ _
        rw [hls_look q hq]
        congr 1
        apply List.map_congr_left
        intro y hy
        rw [hls_look y (by rw [hcons]; exact List.mem_cons_of_mem _ hy)]
      · exact hls_eq
    · rw [if_neg htid] at hs
      exact absurd hs (by simp)

theorem C2_witness :
    ∃ out, computeCPM 1 0 [sampleTask 1 3, sampleTask 2 2]
        [⟨1, 2⟩] true = .ok out
      ∧ (([sampleTask 1 3, sampleTask 2 2] : List Task) = [] →
          out.projectSchedule.finish_date = 0)
      ∧ (∀ tid s, alookup out.scheduleByTask tid = some s →
          s.early_finish ≤ out.projectSchedule.finish_date)
      ∧ (([sampleTask 1 3, sampleTask 2 2] : List Task) ≠ [] →
          ∃ tid s, alookup out.scheduleByTask tid = some s
            ∧ s.early_finish = out.projectSchedule.finish_date)
      ∧ ∀ tid s, alookup out.scheduleByTask tid = some s →
          (∀ y ∈ succsIn [⟨1, 2⟩] tid,
            (alookup out.scheduleByTask y).isSome = true)
          ∧ (succsIn [⟨1, 2⟩] tid = [] →
              s.late_finish = out.projectSchedule.finish_date)
          ∧ (∀ q qs, succsIn [⟨1, 2⟩] tid = q :: qs →
              s.late_finish = minFold (lsOf out.scheduleByTask q)
                (qs.map (lsOf out.scheduleByTask)))
          ∧ s.late_start = s.late_finish
              - max 1 (durOf (buildTaskMap [sampleTask 1 3, sampleTask 2 2]) tid) :=
  ⟨_, rfl, C2_backward_pass 1 0 [sampleTask 1 3, sampleTask 2 2] [⟨1, 2⟩]
    true _ rfl⟩

/-- **C5** Float non-negativity: on every successful computation, every
scheduled task has `earlyStart ≤ lateStart`, `earlyFinish ≤ lateFinish`,
and `totalFloatDays ≥ 0`. -/
theorem C5_float_nonneg (projectId startDate : Int) (tasks : List Task)
    (deps : List TaskDependency) (persist : Bool) (out : ComputeOutput)
    (h : computeCPM projectId startDate tasks deps persist = .ok out) :
    ∀ tid s, alookup out.scheduleByTask tid = some s →
      s.early_start ≤ s.late_start ∧ s.early_finish ≤ s.late_finish
      ∧ 0 ≤ s.total_float_days := by
  obtain ⟨order, htopo, hout⟩ :=
    computeCPM_ok_inv projectId startDate tasks deps persist out h
  subst hout
  have hrun := okRun_of_topo startDate tasks deps order htopo
  intro tid s hs
  rw [mkOutput_sm, smOf_lookup] at hs
  by_cases htid : tid ∈ order
  · rw [if_pos htid] at hs
    injection hs with hs
    subst hs
    have heflf := (ef_le_lf startDate tasks deps order hrun tid htid).1
    have hfl := float_identity startDate tasks deps order hrun tid htid
    refine ⟨?_, heflf, ?_⟩
    · show dateLookup (fwOf startDate tasks deps order).1 tid
        ≤ dateLookup (bwOf startDate tasks deps order).1 tid
      omega
    · show (0 : Int) ≤ dateLookup (bwOf startDate tasks deps order).1 tid
        - dateLookup (fwOf startDate tasks deps order).1 tid
      omega
  · rw [if_neg htid] at hs
    exact absurd hs (by simp)

theorem C5_witness :
    ∃ out, computeCPM 1 0 [sampleTask 1 3, sampleTask 2 2, sampleTask 3 1]
        [⟨1, 2⟩, ⟨1, 3⟩] true = .ok out
      ∧ ∀ tid s, alookup out.scheduleByTask tid = some s →
          s.early_start ≤ s.late_start ∧ s.early_finish ≤ s.late_finish
          ∧ 0 ≤ s.total_float_days :=
  ⟨_, rfl, C5_float_nonneg 1 0 [sampleTask 1 3, sampleTask 2 2, sampleTask 3 1]
    [⟨1, 2⟩, ⟨1, 3⟩] true _ rfl⟩

/-- **C6** counterexample: in the two-task chain `1 → 2` (durations 1,
start date 0) every task is critical, yet task 1 has `lateFinish = 1`
while the project finish date is 2 — so the `lateFinish` of a critical
task need not equal the finish date. -/
theorem C6_counterexample :
    (computeCPM 1 0 [sampleTask 1 1, sampleTask 2 1] [⟨1, 2⟩] true).toOption.map
        (fun out => ((alookup out.scheduleByTask 1).map
            (fun s => (s.total_float_days, s.is_critical, s.late_finish)),
          out.projectSchedule.finish_date))
      = some (some (0, true, 1), 2) := rfl

/-- **C6** (amended) Critical path existence: on every successful
computation with at least one task, some scheduled task is critical
(`totalFloatDays = 0`) and its `lateFinish` equals the finish date;
moreover every critical task has `lateFinish` equal to its own
`earlyFinish` (not, in general, to the finish date). -/
theorem C6_amended (projectId startDate : Int) (tasks : List Task)
    (deps : List TaskDependency) (persist : Bool) (out : ComputeOutput)
    (h : computeCPM projectId startDate tasks deps persist = .ok out) :
    (tasks ≠ [] → ∃ tid s, alookup out.scheduleByTask tid = some s
      ∧ s.total_float_days = 0
      ∧ s.late_finish = out.projectSchedule.finish_date)
    ∧ ∀ tid s, alookup out.scheduleByTask tid = some s →
        s.total_float_days = 0 → s.late_finish = s.early_finish := by
  obtain ⟨order, htopo, hout⟩ :=
    computeCPM_ok_inv projectId startDate tasks deps persist out h
  subst hout
  have hrun := okRun_of_topo startDate tasks deps order htopo
  constructor
  · intro hne
    have horder : order ≠ [] :=
      fun hh => hne ((order_nil_iff startDate tasks deps order hrun).mp hh)
    obtain ⟨t, ht, heq⟩ := finish_attained startDate tasks deps order hrun horder
    obtain ⟨h1, h2⟩ := ef_le_lf startDate tasks deps order hrun t ht
    have hfl := float_identity startDate tasks deps order hrun t ht
    refine ⟨t, mkTaskSchedule
        (fwOf startDate tasks deps order).1 (fwOf startDate tasks deps order).2
        (bwOf startDate tasks deps order).1 (bwOf startDate tasks deps order).2
        t, ?_, ?_, ?_⟩
    · rw [mkOutput_sm, smOf_lookup, if_pos ht]
    · show dateLookup (bwOf startDate tasks deps order).1 t
        - dateLookup (fwOf startDate tasks deps order).1 t = 0
      omega
    · show dateLookup (bwOf startDate tasks deps order).2 t
        = (mkOutput projectId startDate tasks deps persist
            order).projectSchedule.finish_date
      rw [mkOutput_finish]
      omega
  · intro tid s hs
    rw [mkOutput_sm, smOf_lookup] at hs
    by_cases htid : tid ∈ order
    · rw [if_pos htid] at hs
      injection hs with hs
      subst hs
      intro hzero
      have hfl := float_identity startDate tasks deps order hrun tid htid
      show dateLookup (bwOf startDate tasks deps order).2 tid
        = dateLookup (fwOf startDate tasks deps order).2 tid
      have hzero' : dateLookup (bwOf startDate tasks deps order).1 tid
          - dateLookup (fwOf startDate tasks deps order).1 tid = 0 := hzero
      omega
    · rw [if_neg htid] at hs
      exact absurd hs (by simp)

theorem C6_witness :
    ∃ out, computeCPM 1 0 [sampleTask 1 2, sampleTask 2 1]
        [⟨1, 2⟩] true = .ok out
      ∧ (([sampleTask 1 2, sampleTask 2 1] : List Task) ≠ [] →
          ∃ tid s, alookup out.scheduleByTask tid = some s
            ∧ s.total_float_days = 0
            ∧ s.late_finish = out.projectSchedule.finish_date)
      ∧ ∀ tid s, alookup out.scheduleByTask tid = some s →
          s.total_float_days = 0 → s.late_finish = s.early_finish :=
  ⟨_, rfl, C6_amended 1 0 [sampleTask 1 2, sampleTask 2 1] [⟨1, 2⟩]
    true _ rfl⟩

/-- **C10** Output completeness and critical-list consistency: on every
successful computation the schedule map has pairwise-distinct keys which
are exactly the input task ids; `criticalPathTaskIds` is the key list
filtered to the ids with zero float, so it lists exactly the critical
ids in the sorter's order; the key list puts every edge's predecessor
before its successor; and each entry records its own id and is marked
critical exactly when its float is zero. -/
theorem C10_output (projectId startDate : Int) (tasks : List Task)
    (deps : List TaskDependency) (persist : Bool) (out : ComputeOutput)
    (h : computeCPM projectId startDate tasks deps persist = .ok out) :
    (out.scheduleByTask.map (fun e => e.1)).Nodup
    ∧ (∀ tid, (alookup out.scheduleByTask tid).isSome = true
        ↔ tid ∈ tasks.map (fun t => t.id))
    ∧ out.projectSchedule.critical_path_task_ids
        = (out.scheduleByTask.map (fun e => e.1)).filter
            (fun tid => decide (floatOf out.scheduleByTask tid = 0))
    ∧ (∀ e ∈ edgePairs deps, ∃ pl ql,
        out.scheduleByTask.map (fun e => e.1) = pl ++ e.2 :: ql ∧ e.1 ∈ pl)
    ∧ ∀ tid s, alookup out.scheduleByTask tid = some s →
        s.task_id = tid ∧ (s.is_critical = true ↔ s.total_float_days = 0) := by
  obtain ⟨order, htopo, hout⟩ :=
    computeCPM_ok_inv projectId startDate tasks deps persist out h
  subst hout
  have hrun := okRun_of_topo startDate tasks deps order htopo
  have hkeys := smOf_keys startDate tasks deps order
  refine ⟨?_, ?_, ?_, ?_, ?_⟩
  · rw [mkOutput_sm, hkeys]
    exact okRun_order_nodup startDate tasks deps order hrun
  · intro tid
    rw [mkOutput_sm, alookup_isSome, hkeys]
    exact hrun.topo.perm.mem_iff.trans (taskIdsOf_mem tasks tid)
  · rw [mkOutput_crit, mkOutput_sm, hkeys]
    apply List.filter_congr
    intro tid htid
    have hfl : floatOf (smOf startDate tasks deps order) tid
        = dateLookup (bwOf startDate tasks deps order).1 tid
          - dateLookup (fwOf startDate tasks deps order).1 tid := by
      rw [floatOf, smOf_lookup, if_pos htid]
      rfl
    rw [hfl]
    rfl
  · intro e he
    obtain ⟨pl, ql, hsplit, hm⟩ := hrun.topo.sorted e he
    rw [mkOutput_sm, hkeys]
    exact ⟨pl, ql, hsplit, hm⟩
  · intro tid s hs
    rw [mkOutput_sm, smOf_lookup] at hs
    by_cases htid : tid ∈ order
    · rw [if_pos htid] at hs
      injection hs with hs
      subst hs
      refine ⟨rfl, ?_⟩
      show decide (dateLookup (bwOf startDate tasks deps order).1 tid
          - dateLookup (fwOf startDate tasks deps order).1 tid = 0) = true
        ↔ dateLookup (bwOf startDate tasks deps order).1 tid
          - dateLookup (fwOf startDate tasks deps order).1 tid = 0
      exact decide_eq_true_iff
    · rw [if_neg htid] at hs
      exact absurd hs (by simp)

theorem C10_witness :
    ∃ out, computeCPM 1 0 [sampleTask 1 2, sampleTask 2 1, sampleTask 3 4]
        [⟨1, 2⟩, ⟨1, 3⟩] true = .ok out
      ∧ (out.scheduleByTask.map (fun e => e.1)).Nodup
      ∧ (∀ tid, (alookup out.scheduleByTask tid).isSome = true
          ↔ tid ∈ ([sampleTask 1 2, sampleTask 2 1, sampleTask 3 4].map
              (fun t => t.id)))
      ∧ out.projectSchedule.critical_path_task_ids
          = (out.scheduleByTask.map (fun e => e.1)).filter
              (fun tid => decide (floatOf out.scheduleByTask tid = 0))
      ∧ (∀ e ∈ edgePairs [⟨1, 2⟩, ⟨1, 3⟩], ∃ pl ql,
          out.scheduleByTask.map (fun e => e.1) = pl ++ e.2 :: ql ∧ e.1 ∈ pl)
      ∧ ∀ tid s, alookup out.scheduleByTask tid = some s →
          s.task_id = tid ∧ (s.is_critical = true ↔ s.total_float_days = 0) :=
  ⟨_, rfl, C10_output 1 0 [sampleTask 1 2, sampleTask 2 1, sampleTask 3 4]
    [⟨1, 2⟩, ⟨1, 3⟩] true _ rfl⟩

/-- The effect of the write-back loop body on one row: planned dates are
set when the row's id is the mutated key, nothing else changes. -/
def updRow (s f : Int) (tid : Int) (t : Task) : Task :=
  if t.id = tid then
    { t with planned_start_date := some s, planned_finish_date := some f }
  else t

theorem updRow_id (s f tid : Int) (t : Task) : (updRow s f tid t).id = t.id := by
  rw [updRow]
  split <;> rfl

theorem mutateLast_map (tid s f : Int) (rows : List Task)
    (hnd : (rows.map (fun t => t.id)).Nodup) :
    mutateLast tid s f rows = rows.map (updRow s f tid) := by
  induction rows with
  | nil => rfl
  | cons t rest ih =>
    rw [List.map_cons, List.nodup_cons] at hnd
    obtain ⟨hni, hnd'⟩ := hnd
    rw [List.map_cons]
    cases hany : rest.any (fun u => u.id == tid) with
    | true =>
      obtain ⟨u, hu, hub⟩ := List.any_eq_true.mp hany
      have hut : u.id = tid := by simpa using hub
      have htne : ¬(t.id = tid) := fun hh =>
        hni (List.mem_map.mpr ⟨u, hu, by rw [hut, ← hh]⟩)
      have hstep : mutateLast tid s f (t :: rest)
          = t :: mutateLast tid s f rest := by
        simp only [mutateLast, hany, if_true]
      rw [hstep, ih hnd', updRow, if_neg htne]
    | false =>
      cases hbeq : (t.id == tid) with
      | true =>
        have htid : t.id = tid := by simpa using hbeq
        have hstep : mutateLast tid s f (t :: rest)
            = { t with planned_start_date := some s,
                       planned_finish_date := some f } :: rest := by
          simp only [mutateLast, hany, hbeq, Bool.false_eq_true, if_false,
            if_true]
        have hnone : ∀ u ∈ rest, ¬(u.id = tid) := by
          intro u hu hh
          have habs : rest.any (fun u => u.id == tid) = true :=
            List.any_eq_true.mpr ⟨u, hu, by simpa using hh⟩
          rw [hany] at habs
          exact absurd habs (by simp)
        have hrest : rest.map (updRow s f tid) = rest := by
          have h1 : rest.map (updRow s f tid) = rest.map (fun u => u) :=
            List.map_congr_left (fun u hu => by
              rw [updRow, if_neg (hnone u hu)])
          rw [h1, List.map_id']
        rw [hstep, updRow, if_pos htid, hrest]
      | false =>
        have htid : ¬(t.id = tid) := by simpa using hbeq
        have hstep : mutateLast tid s f (t :: rest)
            = t :: mutateLast tid s f rest := by
          simp only [mutateLast, hany, hbeq, Bool.false_eq_true, if_false]
        rw [hstep, ih hnd', updRow, if_neg htid]

/-- What the whole write-back loop computes on a row: its planned dates
become the early start/finish of its schedule entry, if it has one. -/
def plannedWrite (sm : List (Int × TaskSchedule)) (t : Task) : Task :=
  match alookup sm t.id with
  | some sc => { t with planned_start_date := some sc.early_start,
                        planned_finish_date := some sc.early_finish }
  | none => t

theorem persistTasks_spec (sm : List (Int × TaskSchedule)) (rows : List Task)
    (hk : (sm.map (fun e => e.1)).Nodup)
    (hnd : (rows.map (fun t => t.id)).Nodup) :
    persistTasks sm rows = rows.map (plannedWrite sm) := by
  induction sm generalizing rows with
  | nil =>
    have h1 : rows.map (plannedWrite []) = rows.map (fun t => t) :=
      List.map_congr_left (fun t ht => rfl)
    rw [h1, List.map_id']
    rfl
  | cons e sm' ih =>
    rw [List.map_cons, List.nodup_cons] at hk
    obtain ⟨hke, hk'⟩ := hk
    have hstep : persistTasks (e :: sm') rows
        = persistTasks sm' (mutateLast e.1 e.2.early_start e.2.early_finish rows) :=
      rfl
    rw [hstep, mutateLast_map _ _ _ rows hnd]
    have hids : (rows.map (updRow e.2.early_start e.2.early_finish e.1)).map
        (fun t => t.id) = rows.map (fun t => t.id) := by
      rw [List.map_map]
      exact List.map_congr_left (fun t ht => updRow_id _ _ _ t)
    rw [ih _ hk' (by rw [hids]; exact hnd), List.map_map]
    apply List.map_congr_left
    intro t ht
    show plannedWrite sm' (updRow e.2.early_start e.2.early_finish e.1 t)
      = plannedWrite (e :: sm') t
    by_cases hte : t.id = e.1
    · have hup : updRow e.2.early_start e.2.early_finish e.1 t
          = { t with planned_start_date := some e.2.early_start,
                     planned_finish_date := some e.2.early_finish } := by
        rw [updRow, if_pos hte]
      have hlook : alookup sm' t.id = none := by
        rw [alookup_eq_none, hte]
        exact hke
      rw [hup, plannedWrite, plannedWrite]
      have hlook' : alookup sm'
          ({ t with planned_start_date := some e.2.early_start,
                    planned_finish_date := some e.2.early_finish } : Task).id
          = none := hlook
      rw [hlook']
      have hcons : alookup (e :: sm') t.id = some e.2 := by
        show (if t.id = e.1 then some e.2 else alookup sm' t.id) = some e.2
        rw [if_pos hte]
      rw [hcons]
    · have hup : updRow e.2.early_start e.2.early_finish e.1 t = t := by
        rw [updRow, if_neg hte]
      have hcons : alookup (e :: sm') t.id = alookup sm' t.id := by
        show (if t.id = e.1 then some e.2 else alookup sm' t.id)
          = alookup sm' t.id
        rw [if_neg hte]
      rw [hup, plannedWrite, plannedWrite, hcons]

/-- **C9** Planned-date write-back: on every successful computation with
`persist_planned_dates = True` (the default) over rows with distinct ids
(ids are primary-key values), the returned session rows are exactly the
input rows with each row's `planned_start_date` set to its computed early
start and `planned_finish_date` set to its computed early finish — no
other field of any row changes — and every row does have a schedule
entry, so every row is mutated; the call thus changes the session state
rather than acting as a pure function. -/
theorem C9_persist (projectId startDate : Int) (tasks : List Task)
    (deps : List TaskDependency) (out : ComputeOutput)
    (hnd : (tasks.map (fun t => t.id)).Nodup)
    (h : computeCPM projectId startDate tasks deps true = .ok out) :
    out.sessionTasks = tasks.map (plannedWrite out.scheduleByTask)
    ∧ ∀ t ∈ tasks, ∃ sc, alookup out.scheduleByTask t.id = some sc
        ∧ plannedWrite out.scheduleByTask t
          = { t with planned_start_date := some sc.early_start,
                     planned_finish_date := some sc.early_finish } := by
  obtain ⟨order, htopo, hout⟩ :=
    computeCPM_ok_inv projectId startDate tasks deps true out h
  subst hout
  have hrun := okRun_of_topo startDate tasks deps order htopo
  have hkeys := smOf_keys startDate tasks deps order
  have hknd : ((smOf startDate tasks deps order).map (fun e => e.1)).Nodup := by
    rw [hkeys]
    exact okRun_order_nodup startDate tasks deps order hrun
  constructor
  · rw [mkOutput_rows, if_pos rfl, mkOutput_sm]
    exact persistTasks_spec (smOf startDate tasks deps order) tasks hknd hnd
  · intro t ht
    have hmem : t.id ∈ order := by
      apply hrun.topo.perm.mem_iff.mpr
      rw [taskIdsOf_mem]
      exact List.mem_map.mpr ⟨t, ht, rfl⟩
    refine ⟨mkTaskSchedule
        (fwOf startDate tasks deps order).1 (fwOf startDate tasks deps order).2
        (bwOf startDate tasks deps order).1 (bwOf startDate tasks deps order).2
        t.id, ?_, ?_⟩
    · rw [mkOutput_sm, smOf_lookup, if_pos hmem]
    · rw [mkOutput_sm, plannedWrite, smOf_lookup, if_pos hmem]

theorem C9_witness :
    (([sampleTask 1 2, sampleTask 2 1] : List Task).map
        (fun t => t.id)).Nodup
    ∧ ∃ out, computeCPM 1 0 [sampleTask 1 2, sampleTask 2 1] [⟨1, 2⟩]
        true = .ok out
      ∧ out.sessionTasks
          = ([sampleTask 1 2, sampleTask 2 1].map (plannedWrite out.scheduleByTask))
      ∧ ∀ t ∈ ([sampleTask 1 2, sampleTask 2 1] : List Task),
          ∃ sc, alookup out.scheduleByTask t.id = some sc
            ∧ plannedWrite out.scheduleByTask t
              = { t with planned_start_date := some sc.early_start,
                         planned_finish_date := some sc.early_finish } :=
  ⟨by decide, _, rfl,
    C9_persist 1 0 [sampleTask 1 2, sampleTask 2 1] [⟨1, 2⟩] _
      (by decide) rfl⟩

/-- **C3** counterexample: tasks {1, 2} with the cycle 1 → 2 → 1 among
them *and* the extra edge 1 → 99 to an unknown id: the graph has a
directed cycle among the project's tasks, yet compute fails with the
`KeyError` (from `indegree[v] += 1`), not with the cycle error. -/
theorem C3_counterexample :
    HasCycle [⟨1, 2⟩, ⟨2, 1⟩, ⟨1, 99⟩]
      (taskIdsOf [sampleTask 1 1, sampleTask 2 1])
    ∧ errOf (computeCPM 1 0 [sampleTask 1 1, sampleTask 2 1]
        [⟨1, 2⟩, ⟨2, 1⟩, ⟨1, 99⟩] true) = some .keyError :=
  ⟨⟨[1, 2], by decide⟩, rfl⟩

/-- **C3** (amended) Cycle rejection: when every edge's successor id is a
task id (so the `KeyError` path is not taken), any input whose dependency
graph has a directed cycle among the project's tasks makes compute fail
with the cycle error and return no schedule. -/
theorem C3_cycle (projectId startDate : Int) (tasks : List Task)
    (deps : List TaskDependency) (persist : Bool)
    (hVS : ValidSucc deps (taskIdsOf tasks))
    (hcyc : HasCycle deps (taskIdsOf tasks)) :
    computeCPM projectId startDate tasks deps persist = .error .cycleError := by
  have htopo : topologicalOrder (taskIdsOf tasks) (buildAdj deps).1
      = .error .cycleError := by
    rcases topologicalOrder_trichotomy (taskIdsOf tasks) (buildAdj deps).1
      with hk | hc | hok
    · exact absurd hVS
        ((topologicalOrder_keyError_iff deps (taskIdsOf tasks)).mp hk)
    · exact hc
    · obtain ⟨_, _, hnc⟩ := (topologicalOrder_ok_iff deps (taskIdsOf tasks)
        (taskIdsOf_nodup tasks)).mp hok
      exact absurd hcyc hnc
  rw [computeCPM_eq, htopo]

theorem C3_witness :
    ValidSucc [⟨1, 2⟩, ⟨2, 1⟩] (taskIdsOf [sampleTask 1 1, sampleTask 2 1])
    ∧ HasCycle [⟨1, 2⟩, ⟨2, 1⟩] (taskIdsOf [sampleTask 1 1, sampleTask 2 1])
    ∧ computeCPM 1 0 [sampleTask 1 1, sampleTask 2 1] [⟨1, 2⟩, ⟨2, 1⟩] true
        = .error .cycleError := by
  have hVS : ValidSucc [⟨1, 2⟩, ⟨2, 1⟩]
      (taskIdsOf [sampleTask 1 1, sampleTask 2 1]) := by
    unfold ValidSucc
    decide
  exact ⟨hVS, ⟨[1, 2], by decide⟩,
    C3_cycle 1 0 [sampleTask 1 1, sampleTask 2 1] [⟨1, 2⟩, ⟨2, 1⟩] true
      hVS ⟨[1, 2], by decide⟩⟩

/-- **C4** counterexample: with tasks {1, 2}, the dangling-successor edge
1 → 99 makes compute fail with the raw `KeyError`, while the
dangling-predecessor edge 99 → 2 makes it fail with the *cycle* error —
there is no `InvalidInput` failure anywhere, and the two dangling
directions are not even reported alike. -/
theorem C4_counterexample :
    errOf (computeCPM 1 0 [sampleTask 1 1, sampleTask 2 1] [⟨1, 99⟩] true)
        = some .keyError
    ∧ errOf (computeCPM 1 0 [sampleTask 1 1, sampleTask 2 1] [⟨99, 2⟩] true)
        = some .cycleError := ⟨rfl, rfl⟩

/-- **C4** (amended) Dangling edge behaviour: an edge whose successor id
is not a task id makes compute fail with the unhandled `KeyError`; when
all successor ids are task ids but some edge's predecessor id is not,
compute fails with the cycle error (misreporting the dangling reference
as a cycle). In neither case is a schedule returned, and no dedicated
invalid-input failure exists. -/
theorem C4_dangling (projectId startDate : Int) (tasks : List Task)
    (deps : List TaskDependency) (persist : Bool) :
    (¬ ValidSucc deps (taskIdsOf tasks) →
      computeCPM projectId startDate tasks deps persist = .error .keyError)
    ∧ (ValidSucc deps (taskIdsOf tasks) →
      ¬ ValidPred deps (taskIdsOf tasks) →
      computeCPM projectId startDate tasks deps persist
        = .error .cycleError) := by
  constructor
  · intro hnVS
    have htopo := (topologicalOrder_keyError_iff deps (taskIdsOf tasks)).mpr hnVS
    rw [computeCPM_eq, htopo]
  · intro hVS hnVP
    rcases topologicalOrder_trichotomy (taskIdsOf tasks) (buildAdj deps).1
      with hk | hc | hok
    · exact absurd hVS
        ((topologicalOrder_keyError_iff deps (taskIdsOf tasks)).mp hk)
    · rw [computeCPM_eq, hc]
    · obtain ⟨_, hVP, _⟩ := (topologicalOrder_ok_iff deps (taskIdsOf tasks)
        (taskIdsOf_nodup tasks)).mp hok
      exact absurd hVP hnVP

theorem C4_witness :
    (¬ ValidSucc [⟨1, 99⟩] (taskIdsOf [sampleTask 1 1, sampleTask 2 1])
      ∧ computeCPM 1 0 [sampleTask 1 1, sampleTask 2 1] [⟨1, 99⟩] true
          = .error .keyError)
    ∧ (ValidSucc [⟨99, 2⟩] (taskIdsOf [sampleTask 1 1, sampleTask 2 1])
      ∧ ¬ ValidPred [⟨99, 2⟩] (taskIdsOf [sampleTask 1 1, sampleTask 2 1])
      ∧ computeCPM 1 0 [sampleTask 1 1, sampleTask 2 1] [⟨99, 2⟩] true
          = .error .cycleError) := by
  have hns : ¬ ValidSucc [⟨1, 99⟩]
      (taskIdsOf [sampleTask 1 1, sampleTask 2 1]) := by
    unfold ValidSucc
    decide
  have hs : ValidSucc [⟨99, 2⟩]
      (taskIdsOf [sampleTask 1 1, sampleTask 2 1]) := by
    unfold ValidSucc
    decide
  have hnp : ¬ ValidPred [⟨99, 2⟩]
      (taskIdsOf [sampleTask 1 1, sampleTask 2 1]) := by
    unfold ValidPred
    decide
  exact ⟨⟨hns, (C4_dangling 1 0 [sampleTask 1 1, sampleTask 2 1]
      [⟨1, 99⟩] true).1 hns⟩,
    hs, hnp, (C4_dangling 1 0 [sampleTask 1 1, sampleTask 2 1]
      [⟨99, 2⟩] true).2 hs hnp⟩

/-- Two task-map entries with the same key whose durations agree after
the floor `max(1, ·)`. -/
def DurRelE (e₁ e₂ : Int × Task) : Prop :=
  e₁.1 = e₂.1 ∧ max 1 e₁.2.duration_days = max 1 e₂.2.duration_days

theorem aset_durRel (k₁ k₂ : Int) (hk : k₁ = k₂) (v₁ v₂ : Task)
    (hv : max 1 v₁.duration_days = max 1 v₂.duration_days)
    (d₁ d₂ : List (Int × Task)) (h : List.Forall₂ DurRelE d₁ d₂) :
    List.Forall₂ DurRelE (aset d₁ k₁ v₁) (aset d₂ k₂ v₂) := by
  induction h with
  | nil =>
    subst hk
    exact List.Forall₂.cons ⟨rfl, hv⟩ List.Forall₂.nil
  | cons he hrest ih =>
    rename_i a b l₁ l₂
    obtain ⟨he1, he2⟩ := he
    by_cases hkk : k₁ = a.1
    · have hkk₂ : k₂ = b.1 := by rw [← hk, ← he1]; exact hkk
      have hs₁ : aset (a :: l₁) k₁ v₁ = (a.1, v₁) :: l₁ := by
        show (if k₁ = a.1 then (a.1, v₁) :: l₁ else a :: aset l₁ k₁ v₁)
          = (a.1, v₁) :: l₁
        rw [if_pos hkk]
      have hs₂ : aset (b :: l₂) k₂ v₂ = (b.1, v₂) :: l₂ := by
        show (if k₂ = b.1 then (b.1, v₂) :: l₂ else b :: aset l₂ k₂ v₂)
          = (b.1, v₂) :: l₂
        rw [if_pos hkk₂]
      rw [hs₁, hs₂]
      exact List.Forall₂.cons ⟨he1, hv⟩ hrest
    · have hkk₂ : ¬(k₂ = b.1) := by rw [← hk, ← he1]; exact hkk
      have hs₁ : aset (a :: l₁) k₁ v₁ = a :: aset l₁ k₁ v₁ := by
        show (if k₁ = a.1 then (a.1, v₁) :: l₁ else a :: aset l₁ k₁ v₁)
          = a :: aset l₁ k₁ v₁
        rw [if_neg hkk]
      have hs₂ : aset (b :: l₂) k₂ v₂ = b :: aset l₂ k₂ v₂ := by
        show (if k₂ = b.1 then (b.1, v₂) :: l₂ else b :: aset l₂ k₂ v₂)
          = b :: aset l₂ k₂ v₂
        rw [if_neg hkk₂]
      rw [hs₁, hs₂]
      exact List.Forall₂.cons ⟨he1, he2⟩ ih

theorem buildTaskMap_rel (tasks₁ tasks₂ : List Task)
    (h : List.Forall₂ (fun a b => a.id = b.id
      ∧ max 1 a.duration_days = max 1 b.duration_days) tasks₁ tasks₂) :
    List.Forall₂ DurRelE (buildTaskMap tasks₁) (buildTaskMap tasks₂) := by
  rw [buildTaskMap, buildTaskMap]
  suffices hgen : ∀ acc₁ acc₂, List.Forall₂ DurRelE acc₁ acc₂ →
      List.Forall₂ DurRelE (tasks₁.foldl (fun d t => aset d t.id t) acc₁)
        (tasks₂.foldl (fun d t => aset d t.id t) acc₂) from
    hgen [] [] List.Forall₂.nil
  induction h with
  | nil => exact fun acc₁ acc₂ hacc => hacc
  | cons he hrest ih =>
    intro acc₁ acc₂ hacc
    simp only [List.foldl_cons]
    exact ih _ _ (aset_durRel _ _ he.1 _ _ he.2 acc₁ acc₂ hacc)

theorem durRel_keys (d₁ d₂ : List (Int × Task))
    (h : List.Forall₂ DurRelE d₁ d₂) :
    d₁.map (fun e => e.1) = d₂.map (fun e => e.1) := by
  induction h with
  | nil => rfl
  | cons he hrest ih => simp only [List.map_cons, ih, he.1]

theorem durRel_durOf (d₁ d₂ : List (Int × Task))
    (h : List.Forall₂ DurRelE d₁ d₂) (tid : Int) :
    max 1 (durOf d₁ tid) = max 1 (durOf d₂ tid) := by
  induction h with
  | nil => rfl
  | cons he hrest ih =>
    rename_i a b l₁ l₂
    have hc₁ : alookup (a :: l₁) tid
        = if tid = a.1 then some a.2 else alookup l₁ tid := rfl
    have hc₂ : alookup (b :: l₂) tid
        = if tid = b.1 then some b.2 else alookup l₂ tid := rfl
    by_cases ht : tid = a.1
    · have ht₂ : tid = b.1 := by rw [ht, he.1]
      rw [durOf, durOf, hc₁, hc₂, if_pos ht, if_pos ht₂]
      exact he.2
    · have ht₂ : ¬(tid = b.1) := by rw [← he.1]; exact ht
      rw [durOf, durOf, hc₁, hc₂, if_neg ht, if_neg ht₂]
      exact ih

theorem foldl_forwardStep_congr (startDate : Int) (m₁ m₂ : List (Int × Task))
    (hmax : ∀ tid, max 1 (durOf m₁ tid) = max 1 (durOf m₂ tid))
    (preds : List (Int × List Int)) :
    ∀ (l : List Int) (acc : List (Int × Int) × List (Int × Int)),
      l.foldl (forwardStep startDate m₁ preds) acc
        = l.foldl (forwardStep startDate m₂ preds) acc
  | [], _ => rfl
  | tid :: rest, acc => by
    simp only [List.foldl_cons]
    rw [show forwardStep startDate m₁ preds acc tid
        = forwardStep startDate m₂ preds acc tid from by
      simp only [forwardStep, hmax tid]]
    exact foldl_forwardStep_congr startDate m₁ m₂ hmax preds rest _

theorem foldl_backwardStep_congr (finish : Int) (m₁ m₂ : List (Int × Task))
    (hmax : ∀ tid, max 1 (durOf m₁ tid) = max 1 (durOf m₂ tid))
    (succs : List (Int × List Int)) :
    ∀ (l : List Int) (acc : List (Int × Int) × List (Int × Int)),
      l.foldl (backwardStep finish m₁ succs) acc
        = l.foldl (backwardStep finish m₂ succs) acc
  | [], _ => rfl
  | tid :: rest, acc => by
    simp only [List.foldl_cons]
    rw [show backwardStep finish m₁ succs acc tid
        = backwardStep finish m₂ succs acc tid from by
      simp only [backwardStep, hmax tid]]
    exact foldl_backwardStep_congr finish m₁ m₂ hmax succs rest _

theorem computeCPM_dur_congr (projectId startDate : Int)
    (tasks₁ tasks₂ : List Task) (deps : List TaskDependency) (persist : Bool)
    (h : List.Forall₂ (fun a b => a.id = b.id
      ∧ max 1 a.duration_days = max 1 b.duration_days) tasks₁ tasks₂) :
    (computeCPM projectId startDate tasks₁ deps persist).map
        (fun out => (out.projectSchedule, out.scheduleByTask))
      = (computeCPM projectId startDate tasks₂ deps persist).map
        (fun out => (out.projectSchedule, out.scheduleByTask)) := by
  have hrel := buildTaskMap_rel tasks₁ tasks₂ h
  have hmax := durRel_durOf _ _ hrel
  have hids : taskIdsOf tasks₁ = taskIdsOf tasks₂ := durRel_keys _ _ hrel
  rw [computeCPM_eq, computeCPM_eq, ← hids]
  cases htopo : topologicalOrder (taskIdsOf tasks₁) (buildAdj deps).1 with
  | error e => rfl
  | ok order =>
    have hfw : fwOf startDate tasks₁ deps order
        = fwOf startDate tasks₂ deps order := by
      rw [fwOf, fwOf]
      exact foldl_forwardStep_congr startDate _ _ hmax _ order _
    have hfin : finishOf startDate tasks₁ deps order
        = finishOf startDate tasks₂ deps order := by
      rw [finishOf, finishOf, hfw]
    have hbw : bwOf startDate tasks₁ deps order
        = bwOf startDate tasks₂ deps order := by
      rw [bwOf, bwOf, hfin]
      exact foldl_backwardStep_congr _ _ _ hmax _ order.reverse _
    show Except.ok ((mkOutput projectId startDate tasks₁ deps persist
        order).projectSchedule,
      (mkOutput projectId startDate tasks₁ deps persist order).scheduleByTask)
      = Except.ok ((mkOutput projectId startDate tasks₂ deps persist
          order).projectSchedule,
        (mkOutput projectId startDate tasks₂ deps persist order).scheduleByTask)
    simp only [mkOutput, smOf]
    rw [hfw, hbw, hfin]

/-- **C7** Duration floor equivalence: replacing one task whose
`durationDays` is zero or negative by the same task with `durationDays = 1`,
keeping everything else identical, yields exactly the same
`ProjectSchedule` and the same per-task schedule map (success and failure
alike). -/
theorem C7_duration_floor (projectId startDate : Int) (pre post : List Task)
    (t : Task) (deps : List TaskDependency) (persist : Bool)
    (hd : t.duration_days ≤ 0) :
    (computeCPM projectId startDate (pre ++ t :: post) deps persist).map
        (fun out => (out.projectSchedule, out.scheduleByTask))
      = (computeCPM projectId startDate
          (pre ++ { t with duration_days := 1 } :: post) deps persist).map
        (fun out => (out.projectSchedule, out.scheduleByTask)) := by
  apply computeCPM_dur_congr
  have hrefl : ∀ l : List Task, List.Forall₂ (fun a b => a.id = b.id
      ∧ max 1 a.duration_days = max 1 b.duration_days) l l :=
    fun l => List.forall₂_same.mpr (fun a _ => ⟨rfl, rfl⟩)
  apply List.rel_append (hrefl pre)
  apply List.Forall₂.cons
  · refine ⟨rfl, ?_⟩
    show max 1 t.duration_days = max 1 (1 : Int)
    rw [max_self, max_eq_left (le_trans hd zero_le_one)]
  · exact hrefl post

theorem C7_witness :
    (sampleTask 2 0).duration_days ≤ 0
    ∧ (computeCPM 1 0 ([sampleTask 1 2] ++ sampleTask 2 0 :: [])
          [⟨1, 2⟩] true).map
        (fun out => (out.projectSchedule, out.scheduleByTask))
      = (computeCPM 1 0 ([sampleTask 1 2]
            ++ { sampleTask 2 0 with duration_days := 1 } :: [])
          [⟨1, 2⟩] true).map
        (fun out => (out.projectSchedule, out.scheduleByTask)) :=
  ⟨by decide, C7_duration_floor 1 0 [sampleTask 1 2] [] (sampleTask 2 0)
    [⟨1, 2⟩] true (by decide)⟩

theorem maxFold_map_le_of_subset (f : Int → Int) (q₁ : Int) (qs₁ : List Int)
    (q₂ : Int) (qs₂ : List Int) (h : ∀ x ∈ q₁ :: qs₁, x ∈ q₂ :: qs₂) :
    maxFold (f q₁) (qs₁.map f) ≤ maxFold (f q₂) (qs₂.map f) := by
  have hone : ∀ x ∈ q₁ :: qs₁, f x ≤ maxFold (f q₂) (qs₂.map f) := by
    intro x hx
    apply le_maxFold
    rcases List.mem_cons.mp (h x hx) with hh | hh
    · exact Or.inl (by rw [hh])
    · exact Or.inr (List.mem_map.mpr ⟨x, hh, rfl⟩)
  apply maxFold_le
  · exact hone q₁ (List.mem_cons_self _ _)
  · intro y hy
    rcases List.mem_map.mp hy with ⟨p, hp, rfl⟩
    exact hone p (List.mem_cons_of_mem _ hp)

theorem minFold_map_le_of_subset (f : Int → Int) (q₁ : Int) (qs₁ : List Int)
    (q₂ : Int) (qs₂ : List Int) (h : ∀ x ∈ q₁ :: qs₁, x ∈ q₂ :: qs₂) :
    minFold (f q₂) (qs₂.map f) ≤ minFold (f q₁) (qs₁.map f) := by
  have hone : ∀ x ∈ q₁ :: qs₁, minFold (f q₂) (qs₂.map f) ≤ f x := by
    intro x hx
    apply minFold_le
    rcases List.mem_cons.mp (h x hx) with hh | hh
    · exact Or.inl (by rw [hh])
    · exact Or.inr (List.mem_map.mpr ⟨x, hh, rfl⟩)
  apply le_minFold
  · exact hone q₁ (List.mem_cons_self _ _)
  · intro y hy
    rcases List.mem_map.mp hy with ⟨p, hp, rfl⟩
    exact hone p (List.mem_cons_of_mem _ hp)

/-- `esFormula` sees only the *set* of predecessor ids: two predecessor
lists with the same members give the same early start. -/
theorem esFormula_set_congr (startDate : Int) (ef : List (Int × Int))
    (pl₁ pl₂ : List Int) (h : ∀ x, x ∈ pl₁ ↔ x ∈ pl₂) :
    esFormula startDate ef pl₁ = esFormula startDate ef pl₂ := by
  cases pl₁ with
  | nil =>
    cases pl₂ with
    | nil => rfl
    | cons q qs =>
      exact absurd ((h q).mpr (List.mem_cons_self _ _)) (List.not_mem_nil q)
  | cons q₁ qs₁ =>
    cases pl₂ with
    | nil =>
      exact absurd ((h q₁).mp (List.mem_cons_self _ _)) (List.not_mem_nil q₁)
    | cons q₂ qs₂ =>
      rw [esFormula, esFormula]
      exact le_antisymm
        (maxFold_map_le_of_subset _ _ _ _ _ (fun x hx => (h x).mp hx))
        (maxFold_map_le_of_subset _ _ _ _ _ (fun x hx => (h x).mpr hx))

/-- `lfFormula` sees only the *set* of successor ids. -/
theorem lfFormula_set_congr (finish : Int) (ls : List (Int × Int))
    (sl₁ sl₂ : List Int) (h : ∀ x, x ∈ sl₁ ↔ x ∈ sl₂) :
    lfFormula finish ls sl₁ = lfFormula finish ls sl₂ := by
  cases sl₁ with
  | nil =>
    cases sl₂ with
    | nil => rfl
    | cons q qs =>
      exact absurd ((h q).mpr (List.mem_cons_self _ _)) (List.not_mem_nil q)
  | cons q₁ qs₁ =>
    cases sl₂ with
    | nil =>
      exact absurd ((h q₁).mp (List.mem_cons_self _ _)) (List.not_mem_nil q₁)
    | cons q₂ qs₂ =>
      rw [lfFormula, lfFormula]
      exact le_antisymm
        (minFold_map_le_of_subset _ _ _ _ _ (fun x hx => (h x).mpr hx))
        (minFold_map_le_of_subset _ _ _ _ _ (fun x hx => (h x).mp hx))

theorem edgePairs_append (deps₁ deps₂ : List TaskDependency) :
    edgePairs (deps₁ ++ deps₂) = edgePairs deps₁ ++ edgePairs deps₂ := by
  rw [edgePairs, edgePairs, edgePairs, List.map_append]

theorem edgePairs_dup_mem (deps : List TaskDependency) (d : TaskDependency)
    (hd : d ∈ deps) (p : Int × Int) :
    p ∈ edgePairs (deps ++ [d]) ↔ p ∈ edgePairs deps := by
  rw [edgePairs_append, List.mem_append]
  constructor
  · rintro (h | h)
    · exact h
    · have hp : p = (d.predecessor_id, d.successor_id) := by
        simpa [edgePairs] using h
      rw [hp]
      exact List.mem_map.mpr ⟨d, hd, rfl⟩
  · exact Or.inl

theorem predsIn_dup_mem (deps : List TaskDependency) (d : TaskDependency)
    (hd : d ∈ deps) (v x : Int) :
    x ∈ predsIn (deps ++ [d]) v ↔ x ∈ predsIn deps v := by
  rw [mem_predsIn, mem_predsIn]
  exact edgePairs_dup_mem deps d hd (x, v)

theorem succsIn_dup_mem (deps : List TaskDependency) (d : TaskDependency)
    (hd : d ∈ deps) (v x : Int) :
    x ∈ succsIn (deps ++ [d]) v ↔ x ∈ succsIn deps v := by
  rw [mem_succsIn, mem_succsIn]
  exact edgePairs_dup_mem deps d hd (v, x)

theorem validSucc_dup (deps : List TaskDependency) (d : TaskDependency)
    (hd : d ∈ deps) (K : List Int) :
    ValidSucc (deps ++ [d]) K ↔ ValidSucc deps K := by
  constructor
  · intro h e he
    exact h e ((edgePairs_dup_mem deps d hd e).mpr he)
  · intro h e he
    exact h e ((edgePairs_dup_mem deps d hd e).mp he)

theorem validPred_dup (deps : List TaskDependency) (d : TaskDependency)
    (hd : d ∈ deps) (K : List Int) :
    ValidPred (deps ++ [d]) K ↔ ValidPred deps K := by
  constructor
  · intro h e he
    exact h e ((edgePairs_dup_mem deps d hd e).mpr he)
  · intro h e he
    exact h e ((edgePairs_dup_mem deps d hd e).mp he)

theorem chainB_congr (E₁ E₂ : List (Int × Int))
    (h : ∀ p : Int × Int, p ∈ E₁ ↔ p ∈ E₂) :
    ∀ (l : List Int) (a : Int), chainB E₁ a l = chainB E₂ a l
  | [], _ => rfl
  | b :: rest, a => by
    rw [chainB, chainB, chainB_congr E₁ E₂ h rest b]
    have hcc : E₁.contains (a, b) = E₂.contains (a, b) := by
      have h1 : E₁.contains (a, b) = true ↔ E₂.contains (a, b) = true := by
        simpa using h (a, b)
      cases hc₁ : E₁.contains (a, b) with
      | true => exact (h1.mp hc₁).symm
      | false =>
        cases hc₂ : E₂.contains (a, b) with
        | true => exact absurd (h1.mpr hc₂) (by rw [hc₁]; simp)
        | false => rfl
    rw [hcc]

theorem hasCycle_dup (deps : List TaskDependency) (d : TaskDependency)
    (hd : d ∈ deps) (K : List Int) :
    HasCycle (deps ++ [d]) K ↔ HasCycle deps K := by
  have hcok : ∀ c, cycleOK (edgePairs (deps ++ [d])) K c
      = cycleOK (edgePairs deps) K c := by
    intro c
    cases c with
    | nil => rfl
    | cons x xs =>
      rw [cycleOK, cycleOK,
        chainB_congr _ _ (edgePairs_dup_mem deps d hd) (xs ++ [x]) x]
  constructor
  · rintro ⟨c, hc⟩
    exact ⟨c, by rw [← hcok c]; exact hc⟩
  · rintro ⟨c, hc⟩
    exact ⟨c, by rw [hcok c]; exact hc⟩

/-- Classification of the cycle-error outcome of the sorter. -/
theorem topo_cycleError_iff (deps : List TaskDependency) (K : List Int)
    (hK : K.Nodup) :
    topologicalOrder K (buildAdj deps).1 = .error .cycleError
      ↔ (ValidSucc deps K ∧ ¬(ValidPred deps K ∧ ¬ HasCycle deps K)) := by
  constructor
  · intro h
    have hVS : ValidSucc deps K := by
      by_contra hnVS
      have := (topologicalOrder_keyError_iff deps K).mpr hnVS
      rw [h] at this
      exact absurd this (by simp)
    refine ⟨hVS, ?_⟩
    rintro ⟨hVP, hnc⟩
    obtain ⟨order, hok⟩ :=
      (topologicalOrder_ok_iff deps K hK).mpr ⟨hVS, hVP, hnc⟩
    rw [h] at hok
    exact absurd hok (by simp)
  · rintro ⟨hVS, hn⟩
    rcases topologicalOrder_trichotomy K (buildAdj deps).1 with hk | hc | hok
    · exact absurd hVS ((topologicalOrder_keyError_iff deps K).mp hk)
    · exact hc
    · obtain ⟨_, hVP, hnc⟩ :=
        (topologicalOrder_ok_iff deps K hK).mp hok
      exact absurd ⟨hVP, hnc⟩ hn

theorem computeCPM_error_iff (projectId startDate : Int) (tasks : List Task)
    (deps : List TaskDependency) (persist : Bool) (e : ScheduleError) :
    computeCPM projectId startDate tasks deps persist = .error e
      ↔ topologicalOrder (taskIdsOf tasks) (buildAdj deps).1 = .error e := by
  rw [computeCPM_eq]
  split
  · rename_i e' heq
    rw [heq]
    constructor <;> intro h <;> (injection h with h; rw [h])
  · rename_i order heq
    rw [heq]
    constructor <;> intro h <;> exact absurd h (by simp)

/-- The early start/finish maps of two successful runs — with and without
a duplicated edge, over possibly different topological orders — agree on
every ordered task. -/
theorem fw_unique (startDate : Int) (tasks : List Task) (d : TaskDependency)
    (deps : List TaskDependency) (hd : d ∈ deps) (order₁ order₂ : List Int)
    (hrun₁ : OkRun startDate tasks deps order₁)
    (hrun₂ : OkRun startDate tasks (deps ++ [d]) order₂) :
    ∀ t ∈ order₁,
      dateLookup (fwOf startDate tasks deps order₁).1 t
        = dateLookup (fwOf startDate tasks (deps ++ [d]) order₂).1 t
      ∧ dateLookup (fwOf startDate tasks deps order₁).2 t
        = dateLookup (fwOf startDate tasks (deps ++ [d]) order₂).2 t := by
  have hK := taskIdsOf_nodup tasks
  have hlt₁ := topoFacts_edge_lt deps (taskIdsOf tasks) order₁ hrun₁.topo hK
  suffices haux : ∀ n t, t ∈ order₁ → order₁.indexOf t = n →
      dateLookup (fwOf startDate tasks deps order₁).1 t
        = dateLookup (fwOf startDate tasks (deps ++ [d]) order₂).1 t
      ∧ dateLookup (fwOf startDate tasks deps order₁).2 t
        = dateLookup (fwOf startDate tasks (deps ++ [d]) order₂).2 t by
    intro t ht
    exact haux (order₁.indexOf t) t ht rfl
  intro n
  induction n using Nat.strong_induction_on with
  | _ n ih =>
    intro t ht hidx
    have ht₂ : t ∈ order₂ :=
      hrun₂.topo.perm.mem_iff.mpr (hrun₁.topo.perm.mem_iff.mp ht)
    obtain ⟨hes₁, hef₁⟩ := hrun₁.fwEq t ht
    obtain ⟨hes₂, hef₂⟩ := hrun₂.fwEq t ht₂
    have hpm : ∀ p ∈ predsIn deps t, p ∈ order₁ := by
      intro p hp
      have hedge := (mem_predsIn deps p t).mp hp
      rcases hrun₁.topo.sorted (p, t) hedge with ⟨pl, ql, hsplit, hm⟩
      rw [hsplit]
      simp [hm]
    have hIH : ∀ p ∈ predsIn deps t,
        dateLookup (fwOf startDate tasks deps order₁).2 p
          = dateLookup (fwOf startDate tasks (deps ++ [d]) order₂).2 p := by
      intro p hp
      have hedge := (mem_predsIn deps p t).mp hp
      have hlt : order₁.indexOf p < order₁.indexOf t := by
        simpa using hlt₁ (p, t) hedge
      exact (ih (order₁.indexOf p) (by omega) p (hpm p hp) rfl).2
    have hes : dateLookup (fwOf startDate tasks deps order₁).1 t
        = dateLookup (fwOf startDate tasks (deps ++ [d]) order₂).1 t := by
      rw [hes₁, hes₂,
        esFormula_set_congr startDate
          (fwOf startDate tasks (deps ++ [d]) order₂).2
          (predsIn (deps ++ [d]) t) (predsIn deps t)
          (fun x => predsIn_dup_mem deps d hd t x)]
      exact esFormula_congr startDate (predsIn deps t) _ _ hIH
    exact ⟨hes, by rw [hef₁, hef₂, hes]⟩

/-- The computed project finish is unchanged by a duplicated edge. -/
theorem finish_unique (startDate : Int) (tasks : List Task)
    (d : TaskDependency) (deps : List TaskDependency) (hd : d ∈ deps)
    (order₁ order₂ : List Int)
    (hrun₁ : OkRun startDate tasks deps order₁)
    (hrun₂ : OkRun startDate tasks (deps ++ [d]) order₂) :
    finishOf startDate tasks deps order₁
      = finishOf startDate tasks (deps ++ [d]) order₂ := by
  by_cases hnil : order₁ = []
  · have hKnil : taskIdsOf tasks = [] := by
      have hp := hrun₁.topo.perm
      rw [hnil] at hp
      exact hp.symm.eq_nil
    have hnil₂ : order₂ = [] := by
      have hp₂ := hrun₂.topo.perm
      rw [hKnil] at hp₂
      exact hp₂.eq_nil
    subst hnil
    subst hnil₂
    exact (finish_empty startDate tasks deps hrun₁).trans
      (finish_empty startDate tasks (deps ++ [d]) hrun₂).symm
  · have hnil₂ : order₂ ≠ [] := by
      intro hh
      apply hnil
      have hKnil : taskIdsOf tasks = [] := by
        have hp₂ := hrun₂.topo.perm
        rw [hh] at hp₂
        exact hp₂.symm.eq_nil
      have hp₁ := hrun₁.topo.perm
      rw [hKnil] at hp₁
      exact hp₁.eq_nil
    have hfw := fw_unique startDate tasks d deps hd order₁ order₂ hrun₁ hrun₂
    apply le_antisymm
    · obtain ⟨t, ht, heq⟩ :=
        finish_attained startDate tasks deps order₁ hrun₁ hnil
      have ht₂ : t ∈ order₂ :=
        hrun₂.topo.perm.mem_iff.mpr (hrun₁.topo.perm.mem_iff.mp ht)
      rw [← heq, (hfw t ht).2]
      exact finish_ge startDate tasks (deps ++ [d]) order₂ hrun₂ t ht₂
    · obtain ⟨t, ht, heq⟩ :=
        finish_attained startDate tasks (deps ++ [d]) order₂ hrun₂ hnil₂
      have ht₁ : t ∈ order₁ :=
        hrun₁.topo.perm.mem_iff.mpr (hrun₂.topo.perm.mem_iff.mp ht)
      rw [← heq, ← (hfw t ht₁).2]
      exact finish_ge startDate tasks deps order₁ hrun₁ t ht₁

/-- The late start/finish maps of the two runs agree on every ordered
task. -/
theorem bw_unique (startDate : Int) (tasks : List Task) (d : TaskDependency)
    (deps : List TaskDependency) (hd : d ∈ deps) (order₁ order₂ : List Int)
    (hrun₁ : OkRun startDate tasks deps order₁)
    (hrun₂ : OkRun startDate tasks (deps ++ [d]) order₂) :
    ∀ t ∈ order₁,
      dateLookup (bwOf startDate tasks deps order₁).1 t
        = dateLookup (bwOf startDate tasks (deps ++ [d]) order₂).1 t
      ∧ dateLookup (bwOf startDate tasks deps order₁).2 t
        = dateLookup (bwOf startDate tasks (deps ++ [d]) order₂).2 t := by
  have hK := taskIdsOf_nodup tasks
  have hlt₁ := topoFacts_edge_lt deps (taskIdsOf tasks) order₁ hrun₁.topo hK
  have hfin := finish_unique startDate tasks d deps hd order₁ order₂ hrun₁ hrun₂
  suffices haux : ∀ n t, t ∈ order₁ → order₁.length - order₁.indexOf t = n →
      dateLookup (bwOf startDate tasks deps order₁).1 t
        = dateLookup (bwOf startDate tasks (deps ++ [d]) order₂).1 t
      ∧ dateLookup (bwOf startDate tasks deps order₁).2 t
        = dateLookup (bwOf startDate tasks (deps ++ [d]) order₂).2 t by
    intro t ht
    exact haux (order₁.length - order₁.indexOf t) t ht rfl
  intro n
  induction n using Nat.strong_induction_on with
  | _ n ih =>
    intro t ht hidx
    have ht₂ : t ∈ order₂ :=
      hrun₂.topo.perm.mem_iff.mpr (hrun₁.topo.perm.mem_iff.mp ht)
    obtain ⟨hlf₁, hls₁⟩ := hrun₁.bwEq t ht
    obtain ⟨hlf₂, hls₂⟩ := hrun₂.bwEq t ht₂
    have hsm : ∀ s ∈ succsIn deps t, s ∈ order₁ := by
      intro s hs
      have hedge := (mem_succsIn deps t s).mp hs
      rcases hrun₁.topo.sorted (t, s) hedge with ⟨pl, ql, hsplit, hm⟩
      rw [hsplit]
      simp
    have htlen : order₁.indexOf t < order₁.length :=
      List.indexOf_lt_length.mpr ht
    have hIH : ∀ s ∈ succsIn deps t,
        dateLookup (bwOf startDate tasks deps order₁).1 s
          = dateLookup (bwOf startDate tasks (deps ++ [d]) order₂).1 s := by
      intro s hs
      have hedge := (mem_succsIn deps t s).mp hs
      have hlt : order₁.indexOf t < order₁.indexOf s := by
        simpa using hlt₁ (t, s) hedge
      have hslen : order₁.indexOf s < order₁.length :=
        List.indexOf_lt_length.mpr (hsm s hs)
      exact (ih (order₁.length - order₁.indexOf s) (by omega) s (hsm s hs) rfl).1
    have hlf : dateLookup (bwOf startDate tasks deps order₁).2 t
        = dateLookup (bwOf startDate tasks (deps ++ [d]) order₂).2 t := by
      rw [hlf₁, hlf₂, hfin,
        lfFormula_set_congr (finishOf startDate tasks (deps ++ [d]) order₂)
          (bwOf startDate tasks (deps ++ [d]) order₂).1
          (succsIn (deps ++ [d]) t) (succsIn deps t)
          (fun x => succsIn_dup_mem deps d hd t x)]
      exact lfFormula_congr _ (succsIn deps t) _ _ hIH
    exact ⟨by rw [hls₁, hls₂, hlf], hlf⟩

theorem mkTaskSchedule_congr (es₁ ef₁ ls₁ lf₁ es₂ ef₂ ls₂ lf₂ :
    List (Int × Int)) (tid : Int)
    (h1 : dateLookup es₁ tid = dateLookup es₂ tid)
    (h2 : dateLookup ef₁ tid = dateLookup ef₂ tid)
    (h3 : dateLookup ls₁ tid = dateLookup ls₂ tid)
    (h4 : dateLookup lf₁ tid = dateLookup lf₂ tid) :
    mkTaskSchedule es₁ ef₁ ls₁ lf₁ tid = mkTaskSchedule es₂ ef₂ ls₂ lf₂ tid := by
  simp only [mkTaskSchedule, h1, h2, h3, h4]

/-- **C8** counterexample: over tasks {1, 2, 3} (each of duration 1) and
edges 1 → 2, 1 → 3, duplicating the already-present edge 1 → 2 changes
`criticalPathTaskIds` from `[1, 2, 3]` to `[1, 3, 2]` — the duplicate
postpones task 2 in the Kahn queue, so the two `ProjectSchedule`s are not
exactly equal. -/
theorem C8_counterexample :
    (⟨1, 2⟩ : TaskDependency) ∈ ([⟨1, 2⟩, ⟨1, 3⟩] : List TaskDependency)
    ∧ (computeCPM 1 0 [sampleTask 1 1, sampleTask 2 1, sampleTask 3 1]
        [⟨1, 2⟩, ⟨1, 3⟩] true).map
          (fun out => out.projectSchedule.critical_path_task_ids)
        = .ok [1, 2, 3]
    ∧ (computeCPM 1 0 [sampleTask 1 1, sampleTask 2 1, sampleTask 3 1]
        ([⟨1, 2⟩, ⟨1, 3⟩] ++ [⟨1, 2⟩]) true).map
          (fun out => out.projectSchedule.critical_path_task_ids)
        = .ok [1, 3, 2] :=
  ⟨by decide, rfl, rfl⟩

/-- **C8** (amended) Duplicate edge near-harmlessness: appending a second
copy of an edge already present leaves the failure behaviour unchanged,
leaves every task's `TaskSchedule` unchanged (the schedule maps agree on
every id), and leaves the project id, start date and finish date
unchanged; `criticalPathTaskIds` is preserved only up to permutation —
the duplicate can reorder the sorter's output. -/
theorem C8_duplicate (projectId startDate : Int) (tasks : List Task)
    (d : TaskDependency) (deps : List TaskDependency) (persist : Bool)
    (hd : d ∈ deps) :
    (∀ e, computeCPM projectId startDate tasks deps persist = .error e
      ↔ computeCPM projectId startDate tasks (deps ++ [d]) persist = .error e)
    ∧ ∀ out₁ out₂,
        computeCPM projectId startDate tasks deps persist = .ok out₁ →
        computeCPM projectId startDate tasks (deps ++ [d]) persist = .ok out₂ →
        (∀ tid, alookup out₁.scheduleByTask tid
          = alookup out₂.scheduleByTask tid)
        ∧ out₁.projectSchedule.project_id = out₂.projectSchedule.project_id
        ∧ out₁.projectSchedule.start_date = out₂.projectSchedule.start_date
        ∧ out₁.projectSchedule.finish_date = out₂.projectSchedule.finish_date
        ∧ out₁.projectSchedule.critical_path_task_ids.Perm
            out₂.projectSchedule.critical_path_task_ids := by
  constructor
  · intro e
    rw [computeCPM_error_iff, computeCPM_error_iff]
    cases e with
    | keyError =>
      rw [topologicalOrder_keyError_iff, topologicalOrder_keyError_iff,
        validSucc_dup deps d hd]
    | cycleError =>
      rw [topo_cycleError_iff deps _ (taskIdsOf_nodup tasks),
        topo_cycleError_iff (deps ++ [d]) _ (taskIdsOf_nodup tasks),
        validSucc_dup deps d hd, validPred_dup deps d hd,
        hasCycle_dup deps d hd]
  · intro out₁ out₂ h₁ h₂
    obtain ⟨order₁, htopo₁, hout₁⟩ :=
      computeCPM_ok_inv projectId startDate tasks deps persist out₁ h₁
    obtain ⟨order₂, htopo₂, hout₂⟩ :=
      computeCPM_ok_inv projectId startDate tasks (deps ++ [d]) persist out₂ h₂
    subst hout₁
    subst hout₂
    have hrun₁ := okRun_of_topo startDate tasks deps order₁ htopo₁
    have hrun₂ := okRun_of_topo startDate tasks (deps ++ [d]) order₂ htopo₂
    have hfw := fw_unique startDate tasks d deps hd order₁ order₂ hrun₁ hrun₂
    have hbw := bw_unique startDate tasks d deps hd order₁ order₂ hrun₁ hrun₂
    have hfin := finish_unique startDate tasks d deps hd order₁ order₂
      hrun₁ hrun₂
    have hperm : order₁.Perm order₂ :=
      hrun₁.topo.perm.trans hrun₂.topo.perm.symm
    have hts : ∀ t ∈ order₁, mkTaskSchedule
        (fwOf startDate tasks deps order₁).1
        (fwOf startDate tasks deps order₁).2
        (bwOf startDate tasks deps order₁).1
        (bwOf startDate tasks deps order₁).2 t
      = mkTaskSchedule
        (fwOf startDate tasks (deps ++ [d]) order₂).1
        (fwOf startDate tasks (deps ++ [d]) order₂).2
        (bwOf startDate tasks (deps ++ [d]) order₂).1
        (bwOf startDate tasks (deps ++ [d]) order₂).2 t := fun t ht =>
      mkTaskSchedule_congr _ _ _ _ _ _ _ _ t
        (hfw t ht).1 (hfw t ht).2 (hbw t ht).1 (hbw t ht).2
    refine ⟨?_, rfl, rfl, ?_, ?_⟩
    · intro tid
      rw [mkOutput_sm, mkOutput_sm, smOf_lookup, smOf_lookup]
      by_cases hmem : tid ∈ order₁
      · have hmem₂ : tid ∈ order₂ := hperm.mem_iff.mp hmem
        rw [if_pos hmem, if_pos hmem₂, hts tid hmem]
      · have hmem₂ : tid ∉ order₂ := fun hh => hmem (hperm.mem_iff.mpr hh)
        rw [if_neg hmem, if_neg hmem₂]
    · rw [mkOutput_finish, mkOutput_finish]
      exact hfin
    · rw [mkOutput_crit, mkOutput_crit]
      have hfeq : order₂.filter (fun tid => (mkTaskSchedule
          (fwOf startDate tasks (deps ++ [d]) order₂).1
          (fwOf startDate tasks (deps ++ [d]) order₂).2
          (bwOf startDate tasks (deps ++ [d]) order₂).1
          (bwOf startDate tasks (deps ++ [d]) order₂).2 tid).is_critical)
        = order₂.filter (fun tid => (mkTaskSchedule
          (fwOf startDate tasks deps order₁).1
          (fwOf startDate tasks deps order₁).2
          (bwOf startDate tasks deps order₁).1
          (bwOf startDate tasks deps order₁).2 tid).is_critical) :=
        List.filter_congr (fun tid htid => by
          rw [hts tid (hperm.mem_iff.mpr htid)])
      rw [hfeq]
      exact hperm.filter _

theorem C8_witness :
    (⟨1, 2⟩ : TaskDependency) ∈ ([⟨1, 2⟩, ⟨1, 3⟩] : List TaskDependency)
    ∧ ((∀ e, computeCPM 1 0 [sampleTask 1 1, sampleTask 2 1, sampleTask 3 1]
          [⟨1, 2⟩, ⟨1, 3⟩] true = .error e
        ↔ computeCPM 1 0 [sampleTask 1 1, sampleTask 2 1, sampleTask 3 1]
          ([⟨1, 2⟩, ⟨1, 3⟩] ++ [⟨1, 2⟩]) true = .error e)
      ∧ ∀ out₁ out₂,
          computeCPM 1 0 [sampleTask 1 1, sampleTask 2 1, sampleTask 3 1]
            [⟨1, 2⟩, ⟨1, 3⟩] true = .ok out₁ →
          computeCPM 1 0 [sampleTask 1 1, sampleTask 2 1, sampleTask 3 1]
            ([⟨1, 2⟩, ⟨1, 3⟩] ++ [⟨1, 2⟩]) true = .ok out₂ →
          (∀ tid, alookup out₁.scheduleByTask tid
            = alookup out₂.scheduleByTask tid)
          ∧ out₁.projectSchedule.project_id = out₂.projectSchedule.project_id
          ∧ out₁.projectSchedule.start_date = out₂.projectSchedule.start_date
          ∧ out₁.projectSchedule.finish_date = out₂.projectSchedule.finish_date
          ∧ out₁.projectSchedule.critical_path_task_ids.Perm
              out₂.projectSchedule.critical_path_task_ids) :=
  ⟨by decide, C8_duplicate 1 0 [sampleTask 1 1, sampleTask 2 1, sampleTask 3 1]
    ⟨1, 2⟩ [⟨1, 2⟩, ⟨1, 3⟩] true (by decide)⟩

end CPM
